import Mathlib

/-!
# The reflection-driven ini loader of `main.go`

A shallow embedding of `loadIni` and of the standard-library functions it calls
(`strings.Split`, `strings.TrimSpace`, `strings.HasPrefix`, `strings.Index`,
`strconv.ParseInt`, `strconv.ParseBool`, `reflect` field lookup and setters),
followed by theorems about it.

Modelling conventions.
* A Go string is a `List Char`: file contents are taken to be valid UTF-8 text, so
  the byte-level tests of the source on ASCII characters coincide with tests on
  code points.
* A record reached through the pointer argument is a list of top-level fields in
  declaration order; a top-level field of kind struct carries its leaf fields, each
  with its current value. Fields are exported (settable through reflection) and the
  pointer is not nil.
* The interface parameter holds a value with a type: it is not the untyped nil.
* `reflect.Int` is 64 bits wide.
* A run-time panic is an outcome of its own, distinct from a returned error.
-/

namespace Ini

/-- A Go string, as its sequence of characters. -/
abbrev Str := List Char

/-! ## Standard library: strings -/

/-- The predicate `unicode.IsSpace`. -/
def isSpace (c : Char) : Bool :=
  let n := c.toNat
  n == 0x20 || (0x09 ≤ n && n ≤ 0x0d) || n == 0x85 || n == 0xa0 || n == 0x1680 ||
    (0x2000 ≤ n && n ≤ 0x200a) || n == 0x2028 || n == 0x2029 || n == 0x202f ||
    n == 0x205f || n == 0x3000

/-- The function `strings.TrimSpace`: leading and trailing white space removed. -/
def trimSpace (s : Str) : Str :=
  ((s.dropWhile isSpace).reverse.dropWhile isSpace).reverse

/-- The function `strings.HasPrefix`. -/
def hasPrefix (s p : Str) : Bool :=
  p.isPrefixOf s

/-- The function `strings.Index` for a one-character separator: the position of its
first occurrence, `none` standing for the result `-1`. -/
def index (s : Str) (c : Char) : Option Nat :=
  match s with
  | [] => none
  | x :: xs => if x = c then some 0 else (index xs c).map (· + 1)

/-- The call `strings.Split(s, "\r\n")`: the pieces between the non-overlapping
occurrences of carriage-return/line-feed, scanned from the left; never empty. -/
def splitCRLF : Str → List Str
  | [] => [[]]
  | [c] => [[c]]
  | c :: d :: rest =>
    if c = '\r' ∧ d = '\n' then [] :: splitCRLF rest
    else
      match splitCRLF (d :: rest) with
      | [] => [[c]]
      | l :: ls => (c :: l) :: ls

/-- The slice expression `s[lo:hi]` for `lo ≤ hi ≤ len(s)`. -/
def slice (s : Str) (lo hi : Nat) : Str :=
  (s.take hi).drop lo

/-! ## Standard library: strconv -/

/-- The value of a decimal digit, `none` for any other character. -/
def digitVal (c : Char) : Option Nat :=
  if '0' ≤ c ∧ c ≤ '9' then some (c.toNat - '0'.toNat) else none

/-- The digit loop of `strconv.ParseUint` in base 10, without its overflow cut-off:
the number written by `s` when every character is a digit, started from `acc`. -/
def parseDigits (acc : Nat) : Str → Option Nat
  | [] => some acc
  | c :: cs =>
    match digitVal c with
    | none => none
    | some d => parseDigits (acc * 10 + d) cs

/-- The call `strconv.ParseUint(s, 10, 64)` up to the error it reports: `none` when
`s` is empty, has a character that is not a digit, or exceeds `2^64 - 1`. -/
def parseUint (s : Str) : Option Nat :=
  match s with
  | [] => none
  | _ :: _ =>
    match parseDigits 0 s with
    | none => none
    | some n => if n < 2 ^ 64 then some n else none

/-- The call `strconv.ParseInt(s, 10, 64)`: `none` stands for a non-nil error
(syntax or range), `some n` for the result `n` with a nil error. -/
def parseInt (s : Str) : Option Int :=
  match s with
  | [] => none
  | c :: rest =>
    let neg : Bool := c = '-'
    let body : Str := if c = '+' ∨ c = '-' then rest else s
    match parseUint body with
    | none => none
    | some un =>
      if !neg && 2 ^ 63 ≤ un then none
      else if neg && 2 ^ 63 < un then none
      else some (if neg then -(un : Int) else (un : Int))

/-- The function `strconv.ParseBool`: `none` stands for a non-nil error. -/
def parseBool (s : Str) : Option Bool :=
  if s = "1".toList ∨ s = "t".toList ∨ s = "T".toList ∨ s = "TRUE".toList ∨
      s = "true".toList ∨ s = "True".toList then some true
  else if s = "0".toList ∨ s = "f".toList ∨ s = "F".toList ∨ s = "FALSE".toList ∨
      s = "false".toList ∨ s = "False".toList then some false
  else none

/-! ## Reflection: kinds, fields, values -/

/-- The type `reflect.Kind`. -/
inductive Kind
  | invalid | bool | int | int8 | int16 | int32 | int64
  | uint | uint8 | uint16 | uint32 | uint64 | uintptr
  | float32 | float64 | complex64 | complex128
  | array | chan | func | interface | map | pointer | slice | string | struct
  | unsafePointer
  deriving DecidableEq, Repr

/-- The contents of a leaf field. Only the three constructors written by the setters
are inspected; `other` stands for the contents of a field of any other kind. -/
inductive Value
  | str (s : Str)
  | int (n : Int)
  | bool (b : Bool)
  | other (n : Nat)
  deriving DecidableEq, Repr

/-- A field of a section record: its Go name, its `ini` tag (`Tag.Get("ini")`, empty
when the tag is absent), its kind and its current contents. -/
structure Leaf where
  name : Str
  tag : Str
  kind : Kind
  val : Value
  deriving DecidableEq, Repr

/-- A direct field of the target record: its Go name, its `ini` tag, its kind and,
when the kind is struct, its own fields. -/
structure Section where
  name : Str
  tag : Str
  kind : Kind
  fields : List Leaf
  deriving DecidableEq, Repr

/-- The record the pointer argument points to: its direct fields in declaration
order. -/
abbrev Target := List Section

/-- The bit width of a signed integer kind. -/
def bitSize : Kind → Nat
  | .int8 => 8
  | .int16 => 16
  | .int32 => 32
  | _ => 64

/-- The conversion of an `int64` to a signed integer of `w` bits, as done by
`reflect.Value.SetInt`: reduction modulo `2^w` into the signed range. -/
def wrapInt (w : Nat) (n : Int) : Int :=
  (n + 2 ^ (w - 1)) % 2 ^ w - 2 ^ (w - 1)

/-- The method `FieldByName` on the target record, for a name that is empty or is
the name of a direct field: the first direct field so named; `none` is the zero
`reflect.Value`, which is also the answer for the empty name. -/
def fieldByName (t : Target) (name : Str) : Option Section :=
  if name = [] then none else t.find? (fun s => s.name = name)

/-- The method `FieldByName` on a section record. -/
def leafByName (fs : List Leaf) (name : Str) : Option Leaf :=
  if name = [] then none else fs.find? (fun f => f.name = name)

/-- The section scan (source lines 90-98): the name of the first direct field whose
tag equals `sectionName`; when there is none `structName` keeps its value. -/
def findStructName (t : Target) (sectionName structName : Str) : Str :=
  match t with
  | [] => structName
  | s :: rest => if s.tag = sectionName then s.name else findStructName rest sectionName structName

/-- The key scan (source lines 122-131): the name of the first field of the section
whose tag equals `key`, the empty string when there is none. -/
def findFieldName (fs : List Leaf) (key : Str) : Str :=
  match fs with
  | [] => []
  | f :: rest => if f.tag = key then f.name else findFieldName rest key

/-- Replace the first element satisfying `p` by its image under `g`. -/
def updateFirst {α : Type} (p : α → Bool) (g : α → α) : List α → List α
  | [] => []
  | x :: xs => if p x then g x :: xs else x :: updateFirst p g xs

/-- The in-place write through `FieldByName(structName).FieldByName(fieldName)`. -/
def setLeaf (t : Target) (structName fieldName : Str) (v : Value) : Target :=
  updateFirst (fun s => s.name = structName)
    (fun s => { s with
      fields := updateFirst (fun f => f.name = fieldName) (fun f => { f with val := v }) s.fields })
    t

/-! ## The loader -/

/-- The errors `loadIni` returns, one constructor per message. -/
inductive Err
  /-- The message `v param should be a pointer`. -/
  | paramNotPointer
  /-- The message `v param should be a struct`. -/
  | paramNotStruct
  /-- The message `file open failed`. -/
  | fileOpenFailed
  /-- The message `line:%d, syntax error` of a section header. -/
  | sectionSyntax (line : Nat)
  /-- The message `line:%d syntax err` of a key-value line. -/
  | keyValueSyntax (line : Nat)
  /-- The message saying that field `%s` of `v` is not a struct. -/
  | fieldNotStruct (structName : Str)
  /-- The message `line:%d value type error`. -/
  | valueType (line : Nat)
  deriving DecidableEq, Repr

/-- How a call ends: a nil error, a returned error, or a run-time panic. -/
inductive Outcome
  | ok
  | error (e : Err)
  | panic
  deriving DecidableEq, Repr

/-- The effect of one iteration of the line loop: go on with the next line, with the
current `structName` and target, or leave the function. -/
inductive Step
  | next (structName : Str) (target : Target)
  | halt (outcome : Outcome) (target : Target)
  deriving DecidableEq, Repr

/-- What the line loop leaves behind: how it ended and the target as written so
far. -/
structure Result where
  outcome : Outcome
  target : Target
  deriving DecidableEq, Repr

/-- The result of the kind switch (source lines 141-160) for a field of kind `k` and
the trimmed value `val`: the contents to store, a failed parse, or a kind for which
the switch has no case. -/
inductive Coerced
  | value (v : Value)
  | typeError
  | unsupported
  deriving DecidableEq, Repr

/-- The kind switch (source lines 141-160), up to the write it performs. -/
def coerce (k : Kind) (val : Str) : Coerced :=
  match k with
  | .string => .value (.str val)
  | .int8 | .int16 | .int32 | .int64 | .int =>
    match parseInt val with
    | none => .typeError
    | some n => .value (.int (wrapInt (bitSize k) n))
  | .bool =>
    match parseBool val with
    | none => .typeError
    | some b => .value (.bool b)
  | _ => .unsupported

/-- The kind switch (source lines 141-160) on the field `f` named `fieldName` of the
section `structName`, for the trimmed value `val` of the line with index `idx`. -/
def assign (idx : Nat) (structName fieldName : Str) (f : Leaf) (val : Str) (t : Target) : Step :=
  match coerce f.kind val with
  | .value v => .next structName (setLeaf t structName fieldName v)
  | .typeError => .halt (.error (.valueType (idx + 1))) t
  | .unsupported => .next structName t

/-- The binding of a key-value pair (source lines 111-160): section lookup by
`structName`, key scan, and the kind switch. -/
def bindKey (idx : Nat) (key val structName : Str) (t : Target) : Step :=
  match fieldByName t structName with
  | none => .halt .panic t
  | some s =>
    if s.kind ≠ .struct then .halt (.error (.fieldNotStruct structName)) t
    else
      let fieldName := findFieldName s.fields key
      if fieldName.length = 0 then .next structName t
      else
        match leafByName s.fields fieldName with
        | none => .halt .panic t
        | some f => assign idx structName fieldName f val t

/-- The else branch of the loop body (source lines 100-160): a key-value line. -/
def keyValueLine (idx : Nat) (line structName : Str) (t : Target) : Step :=
  if index line '=' = none ∨ hasPrefix line "=".toList then
    .halt (.error (.keyValueSyntax (idx + 1))) t
  else
    let i := (index line '=').getD 0
    bindKey idx (trimSpace (slice line 0 i)) (trimSpace (slice line (i + 1) line.length))
      structName t

/-- The section branch of the loop body (source lines 78-98). -/
def sectionLine (idx : Nat) (line structName : Str) (t : Target) : Step :=
  if line.head? ≠ some '[' ∨ line.getLast? ≠ some ']' then
    .halt (.error (.sectionSyntax (idx + 1))) t
  else
    let sectionName := trimSpace (slice line 1 (line.length - 1))
    if sectionName.length = 0 then .halt (.error (.sectionSyntax (idx + 1))) t
    else .next (findStructName t sectionName structName) t

/-- The body of the line loop (source lines 62-162) for the line `raw` with index
`idx`. -/
def processLine (idx : Nat) (raw structName : Str) (t : Target) : Step :=
  let line := trimSpace raw
  if line.length = 0 then .next structName t
  else if hasPrefix line ";".toList ∨ hasPrefix line "#".toList then .next structName t
  else if hasPrefix line "[".toList then sectionLine idx line structName t
  else keyValueLine idx line structName t

/-- The line loop from index `idx` on, entered with the given `structName`: the
step it ends with, `next` when every line has been processed. -/
def loop (idx : Nat) (lines : List Str) (structName : Str) (t : Target) : Step :=
  match lines with
  | [] => .next structName t
  | raw :: rest =>
    match processLine idx raw structName t with
    | .next structName' t' => loop (idx + 1) rest structName' t'
    | .halt o t' => .halt o t'

/-- The return after the loop (source line 165): a nil error when the loop ran to
its end. -/
def finish : Step → Result
  | .next _ t => ⟨.ok, t⟩
  | .halt o t => ⟨o, t⟩

/-- The loop over the given lines started as in `loadIni`: index zero, empty
`structName`. -/
def loadLines (lines : List Str) (t : Target) : Result :=
  finish (loop 0 lines [] t)

/-- The part of `loadIni` after the file has been read (source lines 58-165). -/
def loadContent (content : Str) (t : Target) : Result :=
  loadLines (splitCRLF content) t

/-- The dynamic value held by the parameter `v`: the kind of its type, the kind of
the element type when that is a pointer, and the record pointed to when the
element type is a struct. -/
structure Arg where
  kind : Kind
  elemKind : Kind
  target : Target
  deriving DecidableEq, Repr

/-- The function `loadIni`. The file system is the function `readFile`, `none` where
`ioutil.ReadFile` fails. The result is the returned error and the argument as the
call leaves it. -/
def loadIni (readFile : Str → Option Str) (fileName : Str) (v : Arg) : Outcome × Arg :=
  if v.kind ≠ .pointer then (.error .paramNotPointer, v)
  else if v.elemKind ≠ .struct then (.error .paramNotStruct, v)
  else
    match readFile fileName with
    | none => (.error .fileOpenFailed, v)
    | some b =>
      let r := loadContent b v.target
      (r.outcome, { v with target := r.target })

/-! ## The configuration types of the repository -/

/-- The zero value of `MysqlConfig`. -/
def mysqlConfig : List Leaf :=
  [ ⟨"Address".toList, "address".toList, .string, .str []⟩,
    ⟨"Port".toList, "port".toList, .int, .int 0⟩,
    ⟨"Username".toList, "username".toList, .string, .str []⟩,
    ⟨"Password".toList, "password".toList, .string, .str []⟩ ]

/-- The zero value of `RedisConfig`. -/
def redisConfig : List Leaf :=
  [ ⟨"Host".toList, "host".toList, .string, .str []⟩,
    ⟨"Port".toList, "post".toList, .int, .int 0⟩,
    ⟨"Password".toList, "password".toList, .string, .str []⟩,
    ⟨"Database".toList, "database".toList, .int, .int 0⟩,
    ⟨"Test".toList, "test".toList, .bool, .bool false⟩ ]

/-- The zero value of `Config`. -/
def config : Target :=
  [ ⟨"MysqlConfig".toList, "mysql".toList, .struct, mysqlConfig⟩,
    ⟨"RedisConfig".toList, "redis".toList, .struct, redisConfig⟩ ]

/-! ## Vocabulary of the specification -/

/-- The classes of a line in the Line Classifier of the specification. -/
inductive LineClass
  | blank
  | comment
  | header (name : Str)
  | badHeader
  | keyValue (key val : Str)
  | badKeyValue
  deriving DecidableEq, Repr

/-- The Line Classifier as the specification words it: trim; an empty line is
blank; a line starting with `;` or `#` is a comment; a line starting with `[` must
end with `]` and have a non-empty trimmed name between the brackets; any other line
must contain `=` and not start with it, and is split at its first `=` into a
trimmed key and a trimmed value. -/
def classify (raw : Str) : LineClass :=
  match trimSpace raw with
  | [] => .blank
  | c :: rest =>
    if c = ';' ∨ c = '#' then .comment
    else if c = '[' then
      if (c :: rest).getLast? = some ']' ∧ trimSpace rest.dropLast ≠ [] then
        .header (trimSpace rest.dropLast)
      else .badHeader
    else if c = '=' ∨ '=' ∉ c :: rest then .badKeyValue
    else
      .keyValue (trimSpace ((c :: rest).takeWhile (· ≠ '=')))
        (trimSpace (((c :: rest).dropWhile (· ≠ '=')).drop 1))

/-- The contents of the leaf field `fieldName` of the direct field `structName`. -/
def readLeaf (t : Target) (structName fieldName : Str) : Option Value :=
  (fieldByName t structName).bind (fun s => (leafByName s.fields fieldName).map (·.val))

/-- The key `key` resolves to the leaf field `f` of the section `s` named
`structName`: the direct field of that name is the record `s`, and `f` is the field
of `s` the key scan selects. -/
def Resolves (t : Target) (structName key : Str) (s : Section) (f : Leaf) : Prop :=
  fieldByName t structName = some s ∧ s.kind = .struct ∧
    findFieldName s.fields key ≠ [] ∧
    leafByName s.fields (findFieldName s.fields key) = some f

instance (t : Target) (structName key : Str) (s : Section) (f : Leaf) :
    Decidable (Resolves t structName key s f) := by
  unfold Resolves
  exact inferInstance

/-- A base-10 signed integer literal: an optional sign followed by one or more
decimal digits. -/
def isIntLiteral (s : Str) : Bool :=
  match s with
  | [] => false
  | c :: rest =>
    if c = '+' ∨ c = '-' then
      !rest.isEmpty && rest.all (fun d => decide ('0' ≤ d ∧ d ≤ '9'))
    else s.all (fun d => decide ('0' ≤ d ∧ d ≤ '9'))

/-- The kinds handled by the integer case of the kind switch. -/
def isIntKind (k : Kind) : Bool :=
  k = .int8 ∨ k = .int16 ∨ k = .int32 ∨ k = .int64 ∨ k = .int

/-- The spellings `strconv.ParseBool` reads as true. -/
def trueSpellings : List Str :=
  ["1".toList, "t".toList, "T".toList, "TRUE".toList, "true".toList, "True".toList]

/-- The spellings `strconv.ParseBool` reads as false. -/
def falseSpellings : List Str :=
  ["0".toList, "f".toList, "F".toList, "FALSE".toList, "false".toList, "False".toList]

/-- The line number an error message carries, if it carries one. -/
def Err.line : Err → Option Nat
  | .sectionSyntax n => some n
  | .keyValueSyntax n => some n
  | .valueType n => some n
  | _ => none

/-- The direct fields of a record type have non-empty, pairwise distinct names, and
non-empty annotations are unique within their scope: among the direct fields of the
target and among the fields of each section. -/
def WellFormed (t : Target) : Prop :=
  t.Pairwise (fun a b => a.name ≠ b.name) ∧ (∀ s ∈ t, s.name ≠ []) ∧
  t.Pairwise (fun a b => a.tag = b.tag → a.tag = []) ∧
  ∀ s ∈ t, s.fields.Pairwise (fun a b => a.name ≠ b.name) ∧ (∀ f ∈ s.fields, f.name ≠ []) ∧
    s.fields.Pairwise (fun a b => a.tag = b.tag → a.tag = [])

instance (t : Target) : Decidable (WellFormed t) := by
  unfold WellFormed
  exact inferInstance

/-- The assignments of a file in file order, each with the name of the last section
header before it; `cur` is the name of the last header seen so far. -/
def assignments (cur : Option Str) : List Str → List (Str × Str × Str)
  | [] => []
  | raw :: rest =>
    match classify raw with
    | .header n => assignments (some n) rest
    | .keyValue k v =>
      match cur with
      | some n => (n, k, v) :: assignments cur rest
      | none => assignments cur rest
    | _ => assignments cur rest

/-- The value of the last assignment to the pair of section `sec` and key `key`. -/
def lastValue (as : List (Str × Str × Str)) (sec key : Str) : Option Str :=
  match as with
  | [] => none
  | a :: rest =>
    match lastValue rest sec key with
    | some v => some v
    | none => if a.1 = sec ∧ a.2.1 = key then some a.2.2 else none

/-- The file is valid for the target: every line that is neither blank nor a comment
is a well-formed header naming a section that is a record of the target, or a
well-formed assignment that follows such a header, whose key is the annotation of a
field of that section and whose value the kind switch accepts for that field. -/
def validLines (t : Target) (cur : Option Str) : List Str → Bool
  | [] => true
  | raw :: rest =>
    match classify raw with
    | .blank => validLines t cur rest
    | .comment => validLines t cur rest
    | .header n => t.any (fun s => s.tag = n && s.kind = .struct) && validLines t (some n) rest
    | .keyValue k v =>
      (match cur with
        | none => false
        | some n =>
          t.any (fun s => s.tag = n && s.fields.any (fun f => f.tag = k &&
            (match coerce f.kind v with
              | .value _ => true
              | _ => false)))) &&
        validLines t cur rest
    | _ => false

/-- The contents the kind switch stores in a field of kind `k` for the value `v`;
`old` when it stores nothing. -/
def coerced (k : Kind) (v : Str) (old : Value) : Value :=
  match coerce k v with
  | .value x => x
  | _ => old

/-- The leaf field `f` of the section annotated `sec`, holding the value `last` has
for its pair of annotations, coerced to its kind, when there is one. -/
def leafWith (last : Str → Str → Option Str) (sec : Str) (f : Leaf) : Leaf :=
  { f with
    val := match last sec f.tag with
      | some v => coerced f.kind v f.val
      | none => f.val }

/-- The section `s` with each of its fields updated from `last`. -/
def sectionWith (last : Str → Str → Option Str) (s : Section) : Section :=
  { s with fields := s.fields.map (leafWith last s.tag) }

/-- The target in which every leaf field whose pair of section annotation and key
annotation has a value under `last` holds that value coerced to its kind, and every
other leaf field holds what it held in `t`. -/
def withValues (last : Str → Str → Option Str) (t : Target) : Target :=
  t.map (sectionWith last)

/-- The table `last` after one more assignment. -/
def setLast (last : Str → Str → Option Str) (sec key val : Str) : Str → Str → Option Str :=
  fun n k => if n = sec ∧ k = key then some val else last n k

/-- The target a step leaves behind. -/
def Step.target : Step → Target
  | .next _ t => t
  | .halt _ t => t

/-- The content contains the two-character sequence carriage return, line feed. -/
def hasCRLF : Str → Bool
  | [] => false
  | [_] => false
  | c :: d :: rest => (c = '\r' && d = '\n') || hasCRLF (d :: rest)

/-- The error as renumbered when a line is inserted after the first `k` lines: a
line number greater than `k` grows by one. -/
def Err.bump (k : Nat) : Err → Err
  | .sectionSyntax n => .sectionSyntax (if k < n then n + 1 else n)
  | .keyValueSyntax n => .keyValueSyntax (if k < n then n + 1 else n)
  | .valueType n => .valueType (if k < n then n + 1 else n)
  | e => e

/-- The outcome as renumbered when a line is inserted after the first `k` lines. -/
def Outcome.bump (k : Nat) : Outcome → Outcome
  | .error e => .error (e.bump k)
  | o => o

/-- The step as renumbered when a line is inserted after the first `k` lines. -/
def Step.bump (k : Nat) : Step → Step
  | .next sn t => .next sn t
  | .halt o t => .halt (o.bump k) t

/-- Sibling fields have pairwise distinct names, among the direct fields of the
target and among the fields of each section, as in every record type. -/
def NamesDistinct (t : Target) : Prop :=
  t.Pairwise (fun a b => a.name ≠ b.name) ∧
  ∀ s ∈ t, s.fields.Pairwise (fun a b => a.name ≠ b.name)

instance (t : Target) : Decidable (NamesDistinct t) := by
  unfold NamesDistinct
  exact inferInstance

/-- The number written by a string of decimal digits. -/
def digitsValue (s : Str) : Nat :=
  s.foldl (fun acc c => acc * 10 + (c.toNat - '0'.toNat)) 0

/-- The integer written by a base-10 signed integer literal. -/
def literalValue (s : Str) : Int :=
  match s with
  | [] => 0
  | c :: rest =>
    if c = '-' then -(digitsValue rest : Int)
    else if c = '+' then (digitsValue rest : Int)
    else (digitsValue s : Int)

/-- The leaf field `f` of the direct field named `sec`, holding the contents `table`
has for the pair of names, when there is one. -/
def leafRe (table : Str → Str → Option Value) (sec : Str) (f : Leaf) : Leaf :=
  { f with val := (table sec f.name).getD f.val }

/-- The section `s` with each of its fields updated from `table`. -/
def sectionRe (table : Str → Str → Option Value) (s : Section) : Section :=
  { s with fields := s.fields.map (leafRe table s.name) }

/-- The target in which every leaf field holds the contents `table` has for the pair
of its section name and its own name, or what it held in `t` when there is none. -/
def revalue (table : Str → Str → Option Value) (t : Target) : Target :=
  t.map (sectionRe table)

/-- The target in which a leaf field that carries an annotation, in a section that
carries one, holds the contents `table` has for it, if any, and every other leaf
field - one without annotation, or in a section without annotation - holds what it
held in `t`. -/
def revalueTagged (table : Str → Str → Option Value) (t : Target) : Target :=
  t.map (fun s => { s with
    fields := s.fields.map (fun f => { f with
      val := if s.tag = [] ∨ f.tag = [] then f.val else (table s.name f.name).getD f.val }) })

/-- The table `table` after a write to the field `fn` of the section `sn`. -/
def setEntry (table : Str → Str → Option Value) (sn fn : Str) (x : Value) :
    Str → Str → Option Value :=
  fun a b => if a = sn ∧ b = fn then some x else table a b

/-- Every entry of the table is for an annotated field of an annotated section of
`t`. -/
def Tagged (t : Target) (table : Str → Str → Option Value) : Prop :=
  ∀ a b, table a b ≠ none →
    ∃ s ∈ t, s.name = a ∧ s.tag ≠ [] ∧ ∃ f ∈ s.fields, f.name = b ∧ f.tag ≠ []
/-- The value `structName` can have during a run on `t`: empty, or the name of a
direct field that carries an annotation. -/
def ActiveName (t : Target) (sn : Str) : Prop :=
  sn = [] ∨ ∃ s ∈ t, s.name = sn ∧ s.tag ≠ []

/-! ## The loop body and the Line Classifier -/
theorem hasPrefix_singleton (s : Str) (c : Char) :
    hasPrefix s [c] = true ↔ s.head? = some c := by
  cases s with
  | nil => simp [hasPrefix, List.isPrefixOf]
  | cons x xs =>
    simp only [hasPrefix, List.isPrefixOf, Bool.and_true, beq_iff_eq, List.head?_cons,
      Option.some.injEq]
    exact eq_comm

theorem index_eq_none_iff (s : Str) (c : Char) : index s c = none ↔ c ∉ s := by
  induction s with
  | nil => simp [index]
  | cons x xs ih =>
    by_cases h : x = c
    · subst h; simp [index]
    · have h' : ¬ c = x := fun e => h e.symm
      simp [index, h, h', ih]

theorem index_take (s : Str) (c : Char) (i : Nat) (h : index s c = some i) :
    s.take i = s.takeWhile (· ≠ c) := by
  induction s generalizing i with
  | nil => simp [index] at h
  | cons x xs ih =>
    by_cases hx : x = c
    · simp [index, hx] at h
      subst h
      simp [List.takeWhile, hx]
    · simp only [index, hx, if_false, Option.map_eq_some'] at h
      obtain ⟨j, hj, rfl⟩ := h
      simp [List.takeWhile, hx, ih j hj]

theorem index_drop (s : Str) (c : Char) (i : Nat) (h : index s c = some i) :
    s.drop (i + 1) = (s.dropWhile (· ≠ c)).drop 1 := by
  induction s generalizing i with
  | nil => simp [index] at h
  | cons x xs ih =>
    by_cases hx : x = c
    · simp [index, hx] at h
      subst h
      simp [List.dropWhile, hx]
    · simp only [index, hx, if_false, Option.map_eq_some'] at h
      obtain ⟨j, hj, rfl⟩ := h
      simp [List.dropWhile, hx, ih j hj]

theorem slice_zero (s : Str) (i : Nat) : slice s 0 i = s.take i := by
  simp [slice]

theorem slice_length (s : Str) (i : Nat) : slice s i s.length = s.drop i := by
  simp [slice]

theorem slice_inner (c : Char) (rest : Str) :
    slice (c :: rest) 1 ((c :: rest).length - 1) = rest.dropLast := by
  cases rest with
  | nil => simp [slice]
  | cons d ds => simp [slice, List.dropLast_eq_take]

/-- The loop body, read through the Line Classifier of the specification. -/
theorem processLine_eq_classify (idx : Nat) (raw sn : Str) (t : Target) :
    processLine idx raw sn t =
      match classify raw with
      | .blank => .next sn t
      | .comment => .next sn t
      | .header name => .next (findStructName t name sn) t
      | .badHeader => .halt (.error (.sectionSyntax (idx + 1))) t
      | .keyValue key val => bindKey idx key val sn t
      | .badKeyValue => .halt (.error (.keyValueSyntax (idx + 1))) t := by
  unfold processLine classify
  cases hl : trimSpace raw with
  | nil => simp
  | cons c rest =>
    have hsemi : hasPrefix (c :: rest) ";".toList = true ↔ c = ';' := by
      rw [show ";".toList = [';'] from rfl, hasPrefix_singleton]; simp
    have hhash : hasPrefix (c :: rest) "#".toList = true ↔ c = '#' := by
      rw [show "#".toList = ['#'] from rfl, hasPrefix_singleton]; simp
    have hbr : hasPrefix (c :: rest) "[".toList = true ↔ c = '[' := by
      rw [show "[".toList = ['['] from rfl, hasPrefix_singleton]; simp
    have heq : hasPrefix (c :: rest) "=".toList = true ↔ c = '=' := by
      rw [show "=".toList = ['='] from rfl, hasPrefix_singleton]; simp
    simp only [List.length_cons, Nat.succ_ne_zero, if_false, hsemi, hhash, hbr]
    by_cases h1 : c = ';' ∨ c = '#'
    · simp [h1]
    · simp only [h1, if_false]
      by_cases h2 : c = '['
      · simp only [h2, if_true]
        unfold sectionLine
        rw [slice_inner]
        by_cases h3 : ('[' :: rest).getLast? = some ']'
        · by_cases h4 : trimSpace rest.dropLast = []
          · simp [h3, h4]
          · simp [h3, h4]
        · simp [h3]
      · simp only [h2, if_false]
        unfold keyValueLine
        simp only [heq, index_eq_none_iff]
        by_cases h5 : c = '=' ∨ '=' ∉ c :: rest
        · have h5' : '=' ∉ c :: rest ∨ c = '=' := h5.symm
          simp only [h5, h5', if_true]
        · have h5' : ¬ ('=' ∉ c :: rest ∨ c = '=') := fun h => h5 h.symm
          simp only [h5, h5', if_false]
          have hmem : index (c :: rest) '=' ≠ none := by
            rw [Ne, index_eq_none_iff]; intro h; exact h5 (Or.inr h)
          obtain ⟨i, hi⟩ := Option.ne_none_iff_exists'.mp hmem
          rw [hi, Option.getD_some, slice_zero, slice_length, index_take _ _ _ hi,
            index_drop _ _ _ hi]

theorem loop_append (pre post : List Str) (idx : Nat) (sn : Str) (t : Target) :
    loop idx (pre ++ post) sn t =
      match loop idx pre sn t with
      | .next sn' t' => loop (idx + pre.length) post sn' t'
      | .halt o t' => .halt o t' := by
  induction pre generalizing idx sn t with
  | nil => simp [loop]
  | cons raw rest ih =>
    rw [List.cons_append]
    simp only [loop, List.length_cons]
    cases h : processLine idx raw sn t with
    | next sn' t' =>
      simp only []
      rw [ih]
      have : idx + 1 + rest.length = idx + (rest.length + 1) := by omega
      rw [this]
    | halt o t' => simp

/-- The line at position `pre.length` of a file is processed in the state the loop
reaches after the lines before it, and decides how the call goes on. -/
theorem loadLines_split (pre post : List Str) (raw sn : Str) (t0 t : Target)
    (hpre : loop 0 pre [] t0 = .next sn t) :
    loadLines (pre ++ raw :: post) t0 =
      finish (match processLine pre.length raw sn t with
        | .next sn' t' => loop (pre.length + 1) post sn' t'
        | .halt o t' => .halt o t') := by
  unfold loadLines
  rw [loop_append, hpre]
  simp only [Nat.zero_add, loop]

theorem loadLines_halt (pre post : List Str) (raw sn : Str) (t0 t t' : Target) (o : Outcome)
    (hpre : loop 0 pre [] t0 = .next sn t)
    (hline : processLine pre.length raw sn t = .halt o t') :
    loadLines (pre ++ raw :: post) t0 = ⟨o, t'⟩ := by
  rw [loadLines_split pre post raw sn t0 t hpre, hline]
  rfl

theorem assign_never_syntaxError (idx n : Nat) (sn fn : Str) (f : Leaf) (val : Str) (t t' : Target) :
    assign idx sn fn f val t ≠ .halt (.error (.keyValueSyntax n)) t' := by
  unfold assign
  split <;> simp

theorem bindKey_never_syntaxError (idx n : Nat) (key val sn : Str) (t t' : Target) :
    bindKey idx key val sn t ≠ .halt (.error (.keyValueSyntax n)) t' := by
  unfold bindKey
  split
  · simp
  · split
    · simp
    · simp only []
      split
      · simp
      · split
        · simp
        · exact assign_never_syntaxError _ _ _ _ _ _ _ _

/-! ## Claims -/

/-- C5. Section-header syntax: a line whose trimmed text starts with `[` fails with
the section syntax error carrying its 1-based line number exactly when the trimmed
text does not end with `]` or the text between its first and last character is empty
after trimming; otherwise it produces no error and the section name looked up is that
inner text, trimmed. -/
theorem section_header_check (pre post : List Str) (raw sn : Str) (t0 t : Target)
    (hpre : loop 0 pre [] t0 = .next sn t)
    (hopen : (trimSpace raw).head? = some '[') :
    (processLine pre.length raw sn t = .halt (.error (.sectionSyntax (pre.length + 1))) t ↔
      ((trimSpace raw).getLast? ≠ some ']' ∨
        trimSpace (trimSpace raw).tail.dropLast = [])) ∧
    (((trimSpace raw).getLast? ≠ some ']' ∨ trimSpace (trimSpace raw).tail.dropLast = []) →
      loadLines (pre ++ raw :: post) t0 = ⟨.error (.sectionSyntax (pre.length + 1)), t⟩) ∧
    (¬ ((trimSpace raw).getLast? ≠ some ']' ∨
        trimSpace (trimSpace raw).tail.dropLast = []) →
      processLine pre.length raw sn t =
        .next (findStructName t (trimSpace (trimSpace raw).tail.dropLast) sn) t) := by
  have key : processLine pre.length raw sn t =
      if (trimSpace raw).getLast? ≠ some ']' ∨ trimSpace (trimSpace raw).tail.dropLast = [] then
        .halt (.error (.sectionSyntax (pre.length + 1))) t
      else .next (findStructName t (trimSpace (trimSpace raw).tail.dropLast) sn) t := by
    rw [processLine_eq_classify]
    unfold classify
    cases hl : trimSpace raw with
    | nil => simp [hl] at hopen
    | cons c rest =>
      rw [hl] at hopen
      simp only [List.head?_cons, Option.some.injEq] at hopen
      subst hopen
      by_cases h3 : ('[' :: rest).getLast? = some ']'
      · by_cases h4 : trimSpace rest.dropLast = []
        · simp [h3, h4]
        · simp [h3, h4]
      · simp [h3]
  refine ⟨?_, ?_, ?_⟩
  · rw [key]
    split <;> simp_all
  · intro hbad
    apply loadLines_halt pre post raw sn t0 t t _ hpre
    rw [key, if_pos hbad]
  · intro hgood
    rw [key, if_neg hgood]

theorem section_header_check_witness :
    loop 0 ["[mysql]".toList] [] config = .next "MysqlConfig".toList config ∧
    (trimSpace " [redis ".toList).head? = some '[' ∧
    loadLines ["[mysql]".toList, " [redis ".toList, "host=h".toList] config =
      ⟨.error (.sectionSyntax 2), config⟩ :=
  ⟨by decide, by decide,
    (section_header_check ["[mysql]".toList] ["host=h".toList] " [redis ".toList
      "MysqlConfig".toList config config (by decide) (by decide)).2.1 (by decide)⟩

/-- C6. Assignment syntax: a line whose trimmed text is non-empty and starts with
none of `;`, `#`, `[` fails with the key-value syntax error carrying its 1-based line
number exactly when it contains no `=` or starts with `=`, in every state of the
loop (whatever `structName` is, the empty one included). -/
theorem assignment_line_check (pre post : List Str) (raw sn : Str) (t0 t : Target)
    (hpre : loop 0 pre [] t0 = .next sn t)
    (hne : trimSpace raw ≠ [])
    (hsemi : (trimSpace raw).head? ≠ some ';')
    (hhash : (trimSpace raw).head? ≠ some '#')
    (hopen : (trimSpace raw).head? ≠ some '[') :
    (∀ (idx : Nat) (sn' : Str) (t' : Target),
      processLine idx raw sn' t' = .halt (.error (.keyValueSyntax (idx + 1))) t' ↔
        ('=' ∉ trimSpace raw ∨ (trimSpace raw).head? = some '=')) ∧
    (('=' ∉ trimSpace raw ∨ (trimSpace raw).head? = some '=') →
      loadLines (pre ++ raw :: post) t0 = ⟨.error (.keyValueSyntax (pre.length + 1)), t⟩) := by
  have key : ∀ (idx : Nat) (sn' : Str) (t' : Target),
      processLine idx raw sn' t' = .halt (.error (.keyValueSyntax (idx + 1))) t' ↔
        ('=' ∉ trimSpace raw ∨ (trimSpace raw).head? = some '=') := by
    intro idx sn' t'
    rw [processLine_eq_classify]
    unfold classify
    cases hl : trimSpace raw with
    | nil => exact absurd hl hne
    | cons c rest =>
      rw [hl] at hsemi hhash hopen
      simp only [List.head?_cons, ne_eq, Option.some.injEq] at hsemi hhash hopen
      have h1 : ¬ (c = ';' ∨ c = '#') := by
        rintro (h | h)
        · exact hsemi h
        · exact hhash h
      simp only [h1, hopen, if_false, List.head?_cons, Option.some.injEq]
      by_cases h5 : c = '=' ∨ '=' ∉ c :: rest
      · simp only [h5, if_true, true_iff]
        exact h5.symm
      · simp only [h5, if_false]
        constructor
        · intro h
          exact absurd h (bindKey_never_syntaxError _ _ _ _ _ _ _)
        · intro h
          exact absurd h.symm h5
  refine ⟨key, ?_⟩
  intro hbad
  exact loadLines_halt pre post raw sn t0 t t _ hpre ((key _ _ _).mpr hbad)

theorem assignment_line_check_witness :
    loop 0 ["[nosuch]".toList] [] config = .next [] config ∧
    loadLines ["[nosuch]".toList, "novalue".toList, "[redis]".toList] config =
      ⟨.error (.keyValueSyntax 2), config⟩ :=
  ⟨by decide,
    (assignment_line_check ["[nosuch]".toList] ["[redis]".toList] "novalue".toList [] config config
      (by decide) (by decide) (by decide) (by decide) (by decide)).2 (by decide)⟩

/-- C10. Usage error: when the argument is not a pointer, or is a pointer to
something that is not a struct, `loadIni` returns the usage error for every file
system and file name, and leaves the argument as it was. -/
theorem loadIni_usage_error (readFile : Str → Option Str) (fileName : Str) (v : Arg)
    (h : v.kind ≠ .pointer ∨ v.elemKind ≠ .struct) :
    loadIni readFile fileName v =
      (.error (if v.kind ≠ .pointer then .paramNotPointer else .paramNotStruct), v) := by
  unfold loadIni
  by_cases h1 : v.kind ≠ .pointer
  · simp [h1]
  · have h2 : v.elemKind ≠ .struct := by
      rcases h with h | h
      · exact absurd h h1
      · exact h
    simp [h1, h2]

theorem loadIni_usage_error_witness :
    ((⟨.pointer, .int, []⟩ : Arg).kind ≠ .pointer ∨ (⟨.pointer, .int, []⟩ : Arg).elemKind ≠ .struct) ∧
    loadIni (fun _ => none) "conf.ini".toList ⟨.pointer, .int, []⟩ =
      (.error .paramNotStruct, ⟨.pointer, .int, []⟩) :=
  ⟨by decide, loadIni_usage_error (fun _ => none) "conf.ini".toList ⟨.pointer, .int, []⟩ (by decide)⟩

/-! ## Claims on the binding of key-value lines -/

theorem parseDigits_all (acc n : Nat) (s : Str) (h : parseDigits acc s = some n) :
    s.all (fun d => decide ('0' ≤ d ∧ d ≤ '9')) = true := by
  induction s generalizing acc with
  | nil => rfl
  | cons c cs ih =>
    unfold parseDigits at h
    unfold digitVal at h
    by_cases hc : '0' ≤ c ∧ c ≤ '9'
    · simp only [hc, and_self, if_true] at h
      simp only [List.all_cons, hc, and_self, decide_True, Bool.true_and]
      exact ih _ h
    · simp [hc] at h

theorem parseUint_literal (s : Str) (n : Nat) (h : parseUint s = some n) :
    s ≠ [] ∧ s.all (fun d => decide ('0' ≤ d ∧ d ≤ '9')) = true := by
  cases s with
  | nil => simp [parseUint] at h
  | cons c cs =>
    refine ⟨by simp, ?_⟩
    unfold parseUint at h
    cases hd : parseDigits 0 (c :: cs) with
    | none => simp [hd] at h
    | some m => exact parseDigits_all 0 m _ hd

/-- A value `strconv.ParseInt` accepts is a base-10 signed integer literal. -/
theorem parseInt_isIntLiteral (s : Str) (n : Int) (h : parseInt s = some n) :
    isIntLiteral s = true := by
  cases s with
  | nil => simp [parseInt] at h
  | cons c rest =>
    unfold parseInt at h
    simp only [] at h
    unfold isIntLiteral
    cases hu : parseUint (if c = '+' ∨ c = '-' then rest else c :: rest) with
    | none => simp [hu] at h
    | some un =>
      have hl := parseUint_literal _ _ hu
      by_cases hs : c = '+' ∨ c = '-'
      · simp only [hs, if_true] at hl ⊢
        obtain ⟨h1, h2⟩ := hl
        cases rest with
        | nil => exact absurd rfl h1
        | cons d ds => simpa using h2
      · simp only [hs, if_false] at hl ⊢
        exact hl.2

theorem parseBool_eq_some_true (s : Str) : parseBool s = some true ↔ s ∈ trueSpellings := by
  unfold parseBool trueSpellings
  simp only [List.mem_cons, List.mem_singleton, List.not_mem_nil, or_false]
  constructor
  · intro h
    split at h
    · assumption
    · split at h <;> simp at h
  · intro h
    rw [if_pos h]

theorem parseBool_eq_some_false (s : Str) : parseBool s = some false ↔ s ∈ falseSpellings := by
  unfold parseBool falseSpellings
  simp only [List.mem_cons, List.mem_singleton, List.not_mem_nil, or_false]
  constructor
  · intro h
    split at h
    · simp at h
    · split at h
      · assumption
      · simp at h
  · intro h
    have hn : ¬ (s = "1".toList ∨ s = "t".toList ∨ s = "T".toList ∨ s = "TRUE".toList ∨
        s = "true".toList ∨ s = "True".toList) := by
      rcases h with h | h | h | h | h | h <;> subst h <;> decide
    rw [if_neg hn, if_pos h]

theorem parseBool_eq_none (s : Str) :
    parseBool s = none ↔ s ∉ trueSpellings ∧ s ∉ falseSpellings := by
  rw [← parseBool_eq_some_true, ← parseBool_eq_some_false]
  cases h : parseBool s with
  | none => simp
  | some b => cases b <;> simp

theorem find?_name {α : Type} (nm : α → Str) (l : List α) (n : Str) (a : α)
    (h : l.find? (fun x => nm x = n) = some a) : nm a = n := by
  have := List.find?_some h
  simpa using this

theorem leafByName_name (fs : List Leaf) (n : Str) (f : Leaf)
    (h : leafByName fs n = some f) : f.name = n := by
  unfold leafByName at h
  split at h
  · simp at h
  · exact find?_name Leaf.name fs n f h

theorem find?_updateFirst {α : Type} (p : α → Bool) (g : α → α) (l : List α) (a : α)
    (h : l.find? p = some a) (hg : p (g a) = true) :
    (updateFirst p g l).find? p = some (g a) := by
  induction l with
  | nil => simp at h
  | cons x xs ih =>
    unfold updateFirst
    by_cases hx : p x = true
    · simp only [List.find?_cons, hx] at h
      simp only [Option.some.injEq] at h
      subst h
      simp [hx, hg]
    · simp only [List.find?_cons, hx] at h
      simp only [hx, Bool.false_eq_true, if_false, List.find?_cons]
      exact ih h

/-- A field just written reads back as the value written. -/
theorem readLeaf_setLeaf (t : Target) (sn fn : Str) (s : Section) (f : Leaf) (v : Value)
    (hs : fieldByName t sn = some s) (hf : leafByName s.fields fn = some f) :
    readLeaf (setLeaf t sn fn v) sn fn = some v := by
  unfold fieldByName at hs
  unfold leafByName at hf
  by_cases hsn : sn = []
  · simp [hsn] at hs
  by_cases hfn : fn = []
  · simp [hfn] at hf
  simp only [hsn, if_false] at hs
  simp only [hfn, if_false] at hf
  have hsname := find?_name Section.name t sn s hs
  have hfname := find?_name Leaf.name s.fields fn f hf
  unfold readLeaf fieldByName leafByName setLeaf
  simp only [hsn, hfn, if_false]
  rw [find?_updateFirst _ _ t s hs (by simpa using hsname)]
  have hleaf := find?_updateFirst (fun f : Leaf => decide (f.name = fn))
    (fun f => { f with val := v }) s.fields f hf (by simpa using hfname)
  simp only [Option.bind, hleaf, Option.map_some']

theorem processLine_keyValue (idx : Nat) (raw key val sn : Str) (t : Target)
    (h : classify raw = .keyValue key val) :
    processLine idx raw sn t = bindKey idx key val sn t := by
  rw [processLine_eq_classify, h]

theorem bindKey_resolved (idx : Nat) (key val sn : Str) (t : Target) (s : Section) (f : Leaf)
    (h : Resolves t sn key s f) :
    bindKey idx key val sn t = assign idx sn f.name f val t := by
  obtain ⟨h1, h2, h3, h4⟩ := h
  have hname := leafByName_name _ _ _ h4
  unfold bindKey
  rw [h1]
  simp only [h2, ne_eq, not_true_eq_false, if_false]
  have h3' : ¬ (findFieldName s.fields key).length = 0 := by
    intro h0; exact h3 (List.length_eq_zero.mp h0)
  simp only [h3', if_false, h4, hname]

/-- C3. Evaluation at the failing input: a file whose only line is a well-formed
assignment, loaded into the zero `Config`, ends in a panic (the field lookup by the
empty `structName` yields the zero `reflect.Value`, whose `Type` method panics). -/
theorem assignment_before_any_section_panics :
    loadContent "address=127.0.0.1".toList config = ⟨.panic, config⟩ := by
  decide

/-- C2. Evaluation at the failing inputs: after a header that names no section the
previous `structName` stays in force, so the assignment under `[nosuch]` is written
into the `mysql` section; and when no header was resolved before, the assignment
ends in a panic. -/
theorem unresolved_section_keeps_structName :
    readLeaf config "MysqlConfig".toList "Port".toList = some (.int 0) ∧
    (loadContent "[mysql]\r\n[nosuch]\r\nport=1".toList config).outcome = .ok ∧
    readLeaf (loadContent "[mysql]\r\n[nosuch]\r\nport=1".toList config).target
      "MysqlConfig".toList "Port".toList = some (.int 1) ∧
    loadContent "[nosuch]\r\nport=1".toList config = ⟨.panic, config⟩ := by
  decide

/-- C4. Unknown key: in a section that is a record, a key-value line whose key is
the tag of no field of that section leaves `structName` and the target as they were,
whatever its value, and the lines after it are processed from that same state. -/
theorem unknown_key_skipped (pre post : List Str) (raw key val sn : Str) (t0 t : Target)
    (s : Section)
    (hpre : loop 0 pre [] t0 = .next sn t)
    (hkv : classify raw = .keyValue key val)
    (hs : fieldByName t sn = some s) (hstruct : s.kind = .struct)
    (hkey : ∀ f ∈ s.fields, f.tag ≠ key) :
    processLine pre.length raw sn t = .next sn t ∧
    loadLines (pre ++ raw :: post) t0 = finish (loop (pre.length + 1) post sn t) := by
  have hfind : ∀ fs : List Leaf, (∀ f ∈ fs, f.tag ≠ key) → findFieldName fs key = [] := by
    intro fs
    induction fs with
    | nil => intro _; rfl
    | cons f rest ih =>
      intro h
      unfold findFieldName
      rw [if_neg (h f (List.mem_cons_self _ _))]
      exact ih (fun g hg => h g (List.mem_cons_of_mem _ hg))
  have hline : processLine pre.length raw sn t = .next sn t := by
    rw [processLine_keyValue _ _ _ _ _ _ hkv]
    unfold bindKey
    rw [hs]
    simp [hstruct, hfind s.fields hkey]
  refine ⟨hline, ?_⟩
  rw [loadLines_split pre post raw sn t0 t hpre, hline]

theorem unknown_key_skipped_witness :
    loadLines ["[mysql]".toList, "port=1".toList, "colour=abc".toList, "address=a".toList] config =
      finish (loop 3 ["address=a".toList] "MysqlConfig".toList
        (setLeaf config "MysqlConfig".toList "Port".toList (.int 1))) :=
  (unknown_key_skipped ["[mysql]".toList, "port=1".toList] ["address=a".toList]
    "colour=abc".toList "colour".toList "abc".toList "MysqlConfig".toList config
    (setLeaf config "MysqlConfig".toList "Port".toList (.int 1))
    ⟨"MysqlConfig".toList, "mysql".toList, .struct,
      [ ⟨"Address".toList, "address".toList, .string, .str []⟩,
        ⟨"Port".toList, "port".toList, .int, .int 1⟩,
        ⟨"Username".toList, "username".toList, .string, .str []⟩,
        ⟨"Password".toList, "password".toList, .string, .str []⟩ ]⟩
    (by decide) (by decide) (by decide) (by decide) (by decide)).2

theorem coerce_int_typeError (k : Kind) (val : Str) (hk : isIntKind k = true)
    (hv : isIntLiteral val = false) : coerce k val = .typeError := by
  have hp : parseInt val = none := by
    cases h : parseInt val with
    | none => rfl
    | some n =>
      have := parseInt_isIntLiteral val n h
      rw [hv] at this
      exact absurd this (by simp)
  cases k <;> simp [isIntKind] at hk <;> simp [coerce, hp]

theorem coerce_bool (val : Str) :
    coerce .bool val =
      match parseBool val with
      | none => .typeError
      | some b => .value (.bool b) := by
  simp [coerce]

theorem value_type_error_aux (pre post : List Str) (raw key val sn : Str) (t0 t : Target)
    (s : Section) (f : Leaf)
    (hpre : loop 0 pre [] t0 = .next sn t)
    (hkv : classify raw = .keyValue key val)
    (hres : Resolves t sn key s f)
    (hbad : (isIntKind f.kind = true ∧ isIntLiteral val = false) ∨
      (f.kind = .bool ∧ val ∉ trueSpellings ∧ val ∉ falseSpellings)) :
    loadLines (pre ++ raw :: post) t0 = ⟨.error (.valueType (pre.length + 1)), t⟩ := by
  have hc : coerce f.kind val = .typeError := by
    rcases hbad with ⟨hk, hv⟩ | ⟨hk, hv⟩
    · exact coerce_int_typeError _ _ hk hv
    · rw [hk, coerce_bool, (parseBool_eq_none val).mpr hv]
  have hline : processLine pre.length raw sn t = .halt (.error (.valueType (pre.length + 1))) t := by
    rw [processLine_keyValue _ _ _ _ _ _ hkv, bindKey_resolved _ _ _ _ _ _ _ hres]
    unfold assign
    rw [hc]
  exact loadLines_halt pre post raw sn t0 t t _ hpre hline

/-- C7. Value type errors: a key-value line whose key resolves to a field of integer
kind and whose value is not a base-10 signed integer literal, or whose key resolves
to a field of boolean kind and whose value is none of the accepted spellings, makes
the call fail with the value-type error carrying that line's 1-based number, the
target being as the lines before left it. -/
theorem value_type_error (pre post : List Str) (raw key val sn : Str) (t0 t : Target)
    (s : Section) (f : Leaf)
    (hpre : loop 0 pre [] t0 = .next sn t)
    (hkv : classify raw = .keyValue key val)
    (hres : Resolves t sn key s f)
    (hbad : (isIntKind f.kind = true ∧ isIntLiteral val = false) ∨
      (f.kind = .bool ∧ val ∉ trueSpellings ∧ val ∉ falseSpellings)) :
    loadLines (pre ++ raw :: post) t0 = ⟨.error (.valueType (pre.length + 1)), t⟩ ∧
    readLeaf (loadLines (pre ++ raw :: post) t0).target sn f.name = some f.val := by
  have hres' := value_type_error_aux pre post raw key val sn t0 t s f hpre hkv hres hbad
  refine ⟨hres', ?_⟩
  rw [hres']
  obtain ⟨h1, _, _, h4⟩ := hres
  have hname := leafByName_name _ _ _ h4
  unfold readLeaf
  rw [h1]
  simp only [Option.bind, hname, h4, Option.map_some']

theorem value_type_error_witness :
    loadLines ["[mysql]".toList, "address=a".toList, "port=abc".toList, "username=u".toList]
        config =
      ⟨.error (.valueType 3), setLeaf config "MysqlConfig".toList "Address".toList
        (.str "a".toList)⟩ :=
  (value_type_error ["[mysql]".toList, "address=a".toList] ["username=u".toList]
    "port=abc".toList "port".toList "abc".toList "MysqlConfig".toList config
    (setLeaf config "MysqlConfig".toList "Address".toList (.str "a".toList))
    ⟨"MysqlConfig".toList, "mysql".toList, .struct,
      [ ⟨"Address".toList, "address".toList, .string, .str "a".toList⟩,
        ⟨"Port".toList, "port".toList, .int, .int 0⟩,
        ⟨"Username".toList, "username".toList, .string, .str []⟩,
        ⟨"Password".toList, "password".toList, .string, .str []⟩ ]⟩
    ⟨"Port".toList, "port".toList, .int, .int 0⟩
    (by decide) (by decide) (by decide) (Or.inl (by decide))).1

/-- C8, counterexample. The value `tRUE` equals `true` when letter case is ignored,
yet a boolean field rejects it with the value-type error. -/
theorem mixed_case_bool_rejected :
    "tRUE".toList.map Char.toLower = "true".toList ∧
    loadContent "[redis]\r\ntest=tRUE".toList config = ⟨.error (.valueType 2), config⟩ := by
  decide

/-- C8, amended. For a key that resolves to a field of boolean kind, the values
`1`, `t`, `T`, `TRUE`, `true`, `True` are accepted and set the field to true, the
values `0`, `f`, `F`, `FALSE`, `false`, `False` are accepted and set it to false, and
every other value makes the call fail with the value-type error carrying the line's
1-based number, the target being left as it was. -/
theorem bool_spellings (pre post : List Str) (raw key val sn : Str) (t0 t : Target)
    (s : Section) (f : Leaf)
    (hpre : loop 0 pre [] t0 = .next sn t)
    (hkv : classify raw = .keyValue key val)
    (hres : Resolves t sn key s f)
    (hkind : f.kind = .bool) :
    (val ∈ trueSpellings →
      processLine pre.length raw sn t = .next sn (setLeaf t sn f.name (.bool true)) ∧
      readLeaf (setLeaf t sn f.name (.bool true)) sn f.name = some (.bool true)) ∧
    (val ∈ falseSpellings →
      processLine pre.length raw sn t = .next sn (setLeaf t sn f.name (.bool false)) ∧
      readLeaf (setLeaf t sn f.name (.bool false)) sn f.name = some (.bool false)) ∧
    (val ∉ trueSpellings ∧ val ∉ falseSpellings →
      loadLines (pre ++ raw :: post) t0 = ⟨.error (.valueType (pre.length + 1)), t⟩) := by
  have hline : processLine pre.length raw sn t = assign pre.length sn f.name f val t := by
    rw [processLine_keyValue _ _ _ _ _ _ hkv, bindKey_resolved _ _ _ _ _ _ _ hres]
  have hread : ∀ v, readLeaf (setLeaf t sn f.name v) sn f.name = some v := by
    intro v
    obtain ⟨h1, _, _, h4⟩ := hres
    have hname := leafByName_name _ _ _ h4
    rw [← hname] at h4
    exact readLeaf_setLeaf t sn f.name s f v h1 h4
  refine ⟨?_, ?_, ?_⟩
  · intro hv
    refine ⟨?_, hread _⟩
    rw [hline]
    unfold assign
    rw [hkind, coerce_bool, (parseBool_eq_some_true val).mpr hv]
  · intro hv
    refine ⟨?_, hread _⟩
    rw [hline]
    unfold assign
    rw [hkind, coerce_bool, (parseBool_eq_some_false val).mpr hv]
  · intro hv
    exact (value_type_error_aux pre post raw key val sn t0 t s f hpre hkv hres
      (Or.inr ⟨hkind, hv⟩))

theorem bool_spellings_witness :
    processLine 1 "test = True".toList "RedisConfig".toList config =
      .next "RedisConfig".toList (setLeaf config "RedisConfig".toList "Test".toList (.bool true)) ∧
    readLeaf (setLeaf config "RedisConfig".toList "Test".toList (.bool true))
      "RedisConfig".toList "Test".toList = some (.bool true) :=
  (bool_spellings ["[redis]".toList] [] "test = True".toList "test".toList "True".toList
    "RedisConfig".toList config config
    ⟨"RedisConfig".toList, "redis".toList, .struct, redisConfig⟩
    ⟨"Test".toList, "test".toList, .bool, .bool false⟩
    (by decide) (by decide) (by decide) (by decide)).1 (by decide)

theorem assign_halt (idx : Nat) (sn fn : Str) (f : Leaf) (val : Str) (t t' : Target)
    (o : Outcome) (h : assign idx sn fn f val t = .halt o t') :
    t' = t ∧ o = .error (.valueType (idx + 1)) := by
  unfold assign at h
  split at h
  · simp at h
  · simp only [Step.halt.injEq] at h
    exact ⟨h.2.symm, h.1.symm⟩
  · simp at h

theorem bindKey_halt (idx : Nat) (key val sn : Str) (t t' : Target) (o : Outcome)
    (h : bindKey idx key val sn t = .halt o t') :
    t' = t ∧ (o = .panic ∨ o = .error (.fieldNotStruct sn) ∨ o = .error (.valueType (idx + 1))) := by
  unfold bindKey at h
  split at h
  · simp only [Step.halt.injEq] at h
    exact ⟨h.2.symm, Or.inl h.1.symm⟩
  · split at h
    · simp only [Step.halt.injEq] at h
      exact ⟨h.2.symm, Or.inr (Or.inl h.1.symm)⟩
    · simp only [] at h
      split at h
      · simp at h
      · split at h
        · simp only [Step.halt.injEq] at h
          exact ⟨h.2.symm, Or.inl h.1.symm⟩
        · have := assign_halt _ _ _ _ _ _ _ _ h
          exact ⟨this.1, Or.inr (Or.inr this.2)⟩

/-- A line that leaves the loop leaves the target as it was, and an error with a line
number carries the index of the line plus one. -/
theorem processLine_halt (idx : Nat) (raw sn : Str) (t t' : Target) (o : Outcome)
    (h : processLine idx raw sn t = .halt o t') :
    t' = t ∧ ∀ e, o = .error e → ∀ n, e.line = some n → n = idx + 1 := by
  rw [processLine_eq_classify] at h
  split at h
  · simp at h
  · simp at h
  · simp at h
  · simp only [Step.halt.injEq] at h
    refine ⟨h.2.symm, ?_⟩
    intro e he n hn
    rw [← h.1] at he
    simp only [Outcome.error.injEq] at he
    subst he
    simpa [Err.line] using hn.symm
  · obtain ⟨h1, h2⟩ := bindKey_halt _ _ _ _ _ _ _ h
    refine ⟨h1, ?_⟩
    intro e he n hn
    rcases h2 with h2 | h2 | h2
    · rw [h2] at he; simp at he
    · rw [h2] at he
      simp only [Outcome.error.injEq] at he
      subst he
      simp [Err.line] at hn
    · rw [h2] at he
      simp only [Outcome.error.injEq] at he
      subst he
      simpa [Err.line] using hn.symm
  · simp only [Step.halt.injEq] at h
    refine ⟨h.2.symm, ?_⟩
    intro e he n hn
    rw [← h.1] at he
    simp only [Outcome.error.injEq] at he
    subst he
    simpa [Err.line] using hn.symm

/-- C9. Fail-fast without rollback: when the lines before a line are processed
without leaving the loop and that line fails with a syntax or value-type error, the
call returns that error, the error carries the line's 1-based number, and the target
is the one the call produces, successfully, on the lines before alone; the lines
after have no effect. -/
theorem fail_fast (pre post : List Str) (raw sn : Str) (t0 t t' : Target) (e : Err)
    (hpre : loop 0 pre [] t0 = .next sn t)
    (hfail : processLine pre.length raw sn t = .halt (.error e) t')
    (hkind : e.line.isSome = true) :
    loadLines (pre ++ raw :: post) t0 = ⟨.error e, t⟩ ∧
    e.line = some (pre.length + 1) ∧
    loadLines pre t0 = ⟨.ok, t⟩ := by
  obtain ⟨h1, h2⟩ := processLine_halt _ _ _ _ _ _ hfail
  subst h1
  refine ⟨loadLines_halt pre post raw sn t0 t' t' _ hpre hfail, ?_, ?_⟩
  · obtain ⟨n, hn⟩ := Option.isSome_iff_exists.mp hkind
    rw [hn, h2 e rfl n hn]
  · unfold loadLines
    rw [hpre]
    rfl

theorem fail_fast_witness :
    loadLines ["[mysql]".toList, "port=7".toList, "[redis".toList, "address=a".toList] config =
      ⟨.error (.sectionSyntax 3), setLeaf config "MysqlConfig".toList "Port".toList (.int 7)⟩ ∧
    loadLines ["[mysql]".toList, "port=7".toList] config =
      ⟨.ok, setLeaf config "MysqlConfig".toList "Port".toList (.int 7)⟩ :=
  have h := fail_fast ["[mysql]".toList, "port=7".toList] ["address=a".toList] "[redis".toList
    "MysqlConfig".toList config (setLeaf config "MysqlConfig".toList "Port".toList (.int 7))
    (setLeaf config "MysqlConfig".toList "Port".toList (.int 7)) (.sectionSyntax 3)
    (by decide) (by decide) (by decide)
  ⟨h.1, h.2.2⟩

/-! ## Last write wins -/

theorem dropWhile_append_singleton (p : Char → Bool) (l : Str) (x : Char) (hx : p x = false) :
    ∃ l', (l ++ [x]).dropWhile p = l' ++ [x] := by
  induction l with
  | nil => exact ⟨[], by simp [List.dropWhile, hx]⟩
  | cons y ys ih =>
    by_cases hy : p y = true
    · obtain ⟨l', hl'⟩ := ih
      exact ⟨l', by simp [List.dropWhile, hy, hl']⟩
    · exact ⟨y :: ys, by simp [List.dropWhile, hy]⟩

theorem dropWhile_head (p : Char → Bool) (s : Str) (c : Char) (rest : Str)
    (h : s.dropWhile p = c :: rest) : p c = false := by
  induction s with
  | nil => simp at h
  | cons y ys ih =>
    by_cases hy : p y = true
    · simp only [List.dropWhile, hy] at h
      exact ih h
    · simp only [List.dropWhile, hy] at h
      simp only [List.cons.injEq] at h
      rw [← h.1]
      simpa using hy

/-- The first character of a trimmed string is not white space. -/
theorem trimSpace_head (s : Str) (c : Char) (rest : Str) (h : trimSpace s = c :: rest) :
    isSpace c = false := by
  unfold trimSpace at h
  cases hd : s.dropWhile isSpace with
  | nil => simp [hd] at h
  | cons x xs =>
    have hx := dropWhile_head isSpace s x xs hd
    rw [hd, List.reverse_cons] at h
    obtain ⟨l', hl'⟩ := dropWhile_append_singleton isSpace xs.reverse x hx
    rw [hl', List.reverse_append] at h
    simp only [List.reverse_cons, List.reverse_nil, List.nil_append, List.singleton_append,
      List.cons.injEq] at h
    rw [← h.1]
    exact hx

/-- A string that starts with a character that is not white space does not trim to
the empty string. -/
theorem trimSpace_ne_nil (c : Char) (xs : Str) (hc : isSpace c = false) :
    trimSpace (c :: xs) ≠ [] := by
  unfold trimSpace
  have hd : (c :: xs).dropWhile isSpace = c :: xs := by simp [List.dropWhile, hc]
  rw [hd, List.reverse_cons]
  obtain ⟨l', hl'⟩ := dropWhile_append_singleton isSpace xs.reverse c hc
  rw [hl']
  simp

/-- The name of an accepted header and the key of an accepted assignment are not
empty. -/
theorem classify_nonempty (raw : Str) :
    (∀ n, classify raw = .header n → n ≠ []) ∧
    (∀ k v, classify raw = .keyValue k v → k ≠ []) := by
  unfold classify
  cases hl : trimSpace raw with
  | nil => simp
  | cons c rest =>
    have hc := trimSpace_head raw c rest hl
    constructor
    · intro n h
      simp only [] at h
      split at h
      · simp at h
      · split at h
        · split at h
          · rename_i hgood
            simp only [LineClass.header.injEq] at h
            rw [← h]
            exact hgood.2
          · simp at h
        · split at h <;> simp at h
    · intro k v h
      simp only [] at h
      split at h
      · simp at h
      · split at h
        · split at h <;> simp at h
        · split at h
          · simp at h
          · rename_i hne
            simp only [LineClass.keyValue.injEq] at h
            rw [← h.1]
            have hceq : ¬ c = '=' := fun e => hne (Or.inl e)
            have : (c :: rest).takeWhile (fun x => decide (x ≠ '=')) =
                c :: rest.takeWhile (fun x => decide (x ≠ '=')) := by
              simp [List.takeWhile, hceq]
            rw [this]
            exact trimSpace_ne_nil c _ hc

theorem unique_name {α : Type} (nm : α → Str) (l : List α)
    (hpw : l.Pairwise (fun a b => nm a ≠ nm b)) (x y : α) (hx : x ∈ l) (hy : y ∈ l)
    (h : nm x = nm y) : x = y := by
  by_contra hne
  have hsym : Symmetric (fun a b : α => nm a ≠ nm b) := fun a b hab e => hab e.symm
  exact hpw.forall hsym hx hy hne h

theorem unique_tag {α : Type} (tg : α → Str) (l : List α)
    (hpw : l.Pairwise (fun a b => tg a = tg b → tg a = [])) (x y : α) (hx : x ∈ l) (hy : y ∈ l)
    (h : tg x = tg y) (hne : tg x ≠ []) : x = y := by
  by_contra hxy
  have hsym : Symmetric (fun a b : α => tg a = tg b → tg a = []) := by
    intro a b hab e
    rw [e]
    exact hab e.symm
  exact hne (hpw.forall hsym hx hy hxy h)

theorem find?_unique {α : Type} (key : α → Str) (l : List α) (a : α) (ha : a ∈ l)
    (huniq : ∀ y ∈ l, key y = key a → y = a) :
    l.find? (fun y => decide (key y = key a)) = some a := by
  cases h : l.find? (fun y => decide (key y = key a)) with
  | none =>
    rw [List.find?_eq_none] at h
    exact absurd (by simp) (h a ha)
  | some y =>
    have hy := List.mem_of_find?_eq_some h
    have hk := List.find?_some h
    simp only [decide_eq_true_eq] at hk
    rw [huniq y hy hk]

theorem updateFirst_map {α : Type} (nm : α → Str) (n : Str) (g h : α → α) (l : List α)
    (hnm : ∀ y, nm (h y) = nm y) (hpw : l.Pairwise (fun a b => nm a ≠ nm b)) :
    updateFirst (fun y => decide (nm y = n)) g (l.map h) =
      l.map (fun y => if nm y = n then g (h y) else h y) := by
  induction l with
  | nil => rfl
  | cons x xs ih =>
    rw [List.pairwise_cons] at hpw
    simp only [List.map_cons, updateFirst, hnm, decide_eq_true_eq]
    by_cases hx : nm x = n
    · simp only [hx, if_true, List.cons.injEq, true_and]
      apply List.map_congr_left
      intro y hy
      have : ¬ nm y = n := fun e => hpw.1 y hy (hx.trans e.symm)
      simp [this]
    · simp only [hx, if_false, List.cons.injEq, true_and]
      exact ih hpw.2

theorem findStructName_eq (t : Target) (n sn : Str) :
    findStructName t n sn =
      match t.find? (fun s => decide (s.tag = n)) with
      | some y => y.name
      | none => sn := by
  induction t with
  | nil => rfl
  | cons x xs ih =>
    unfold findStructName
    by_cases hx : x.tag = n
    · simp [hx]
    · simp [hx, ih]

theorem findFieldName_eq (fs : List Leaf) (k : Str) :
    findFieldName fs k =
      match fs.find? (fun f => decide (f.tag = k)) with
      | some y => y.name
      | none => [] := by
  induction fs with
  | nil => rfl
  | cons x xs ih =>
    unfold findFieldName
    by_cases hx : x.tag = k
    · simp [hx]
    · simp [hx, ih]

theorem findStructName_withValues (last : Str → Str → Option Str) (t : Target) (n sn : Str) :
    findStructName (withValues last t) n sn = findStructName t n sn := by
  induction t with
  | nil => rfl
  | cons x xs ih =>
    unfold withValues at ih ⊢
    simp only [List.map_cons, findStructName, sectionWith, ih]

theorem fieldByName_withValues (last : Str → Str → Option Str) (t : Target) (sn : Str) :
    fieldByName (withValues last t) sn = (fieldByName t sn).map (sectionWith last) := by
  unfold fieldByName withValues
  by_cases h : sn = []
  · simp [h]
  · simp only [h, if_false, List.find?_map]
    rfl

theorem findFieldName_map (last : Str → Str → Option Str) (sec : Str) (fs : List Leaf) (k : Str) :
    findFieldName (fs.map (leafWith last sec)) k = findFieldName fs k := by
  induction fs with
  | nil => rfl
  | cons x xs ih =>
    simp only [List.map_cons, findFieldName, leafWith, ih]

theorem leafByName_map (last : Str → Str → Option Str) (sec : Str) (fs : List Leaf) (fn : Str) :
    leafByName (fs.map (leafWith last sec)) fn = (leafByName fs fn).map (leafWith last sec) := by
  unfold leafByName
  by_cases h : fn = []
  · simp [h]
  · simp only [h, if_false, List.find?_map]
    rfl

theorem leafWith_setLast_other (last : Str → Str → Option Str) (sec key v sec' : Str)
    (l : Leaf) (h : ¬ (sec' = sec ∧ l.tag = key)) :
    leafWith (setLast last sec key v) sec' l = leafWith last sec' l := by
  unfold leafWith setLast
  simp only [h, if_false]

/-- The write the loop performs for an assignment to the field `f` of the section `s`
is the update of the table of last values at the pair of their annotations. -/
theorem setLeaf_withValues (last : Str → Str → Option Str) (t : Target) (s : Section) (f : Leaf)
    (v : Str) (x : Value) (hwf : WellFormed t) (hs : s ∈ t) (hstag : s.tag ≠ [])
    (hf : f ∈ s.fields) (hftag : f.tag ≠ []) (hx : coerce f.kind v = .value x) :
    setLeaf (withValues last t) s.name f.name x =
      withValues (setLast last s.tag f.tag v) t := by
  obtain ⟨hnames, _, htags, hfields⟩ := hwf
  obtain ⟨hfnames, _, hftags⟩ := hfields s hs
  unfold setLeaf withValues
  rw [updateFirst_map Section.name s.name _ (sectionWith last) t (fun _ => rfl) hnames]
  apply List.map_congr_left
  intro y hy
  by_cases hyn : y.name = s.name
  · have hys : y = s := unique_name Section.name t hnames y s hy hs hyn
    subst hys
    simp only [if_true]
    unfold sectionWith
    simp only [Section.mk.injEq, true_and]
    rw [updateFirst_map Leaf.name f.name _ (leafWith last y.tag) y.fields (fun _ => rfl) hfnames]
    apply List.map_congr_left
    intro l hl
    by_cases hln : l.name = f.name
    · have hlf : l = f := unique_name Leaf.name y.fields hfnames l f hl hf hln
      subst hlf
      simp only [if_true]
      unfold leafWith setLast coerced
      simp [hx]
    · simp only [hln, if_false]
      have hlt : ¬ (y.tag = y.tag ∧ l.tag = f.tag) := by
        rintro ⟨_, e⟩
        have hne : l.tag ≠ [] := by rw [e]; exact hftag
        exact hln (congrArg Leaf.name (unique_tag Leaf.tag y.fields hftags l f hl hf e hne))
      rw [leafWith_setLast_other _ _ _ _ _ _ hlt]
  · simp only [hyn, if_false]
    have hyt : ¬ y.tag = s.tag := by
      intro e
      have hne : y.tag ≠ [] := by rw [e]; exact hstag
      exact hyn (congrArg Section.name (unique_tag Section.tag t htags y s hy hs e hne))
    unfold sectionWith
    simp only [Section.mk.injEq, true_and]
    apply List.map_congr_left
    intro l _
    rw [leafWith_setLast_other]
    rintro ⟨e, _⟩
    exact hyt e

/-- The binding of a valid assignment: the key-value pair is written to the field
annotated `f.tag` of the section annotated `s.tag`. -/
theorem bindKey_valid (idx : Nat) (last : Str → Str → Option Str) (t : Target) (s : Section)
    (f : Leaf) (v : Str) (x : Value) (hwf : WellFormed t) (hs : s ∈ t) (hstag : s.tag ≠ [])
    (hkind : s.kind = .struct) (hf : f ∈ s.fields) (hftag : f.tag ≠ [])
    (hx : coerce f.kind v = .value x) :
    bindKey idx f.tag v s.name (withValues last t) =
      .next s.name (withValues (setLast last s.tag f.tag v) t) := by
  have hwf' := hwf
  obtain ⟨hnames, hnonempty, htags, hfields⟩ := hwf
  obtain ⟨hfnames, hfnonempty, hftags⟩ := hfields s hs
  have h1 : fieldByName t s.name = some s := by
    unfold fieldByName
    rw [if_neg (hnonempty s hs)]
    exact find?_unique Section.name t s hs
      (fun y hy e => unique_name Section.name t hnames y s hy hs e)
  have h2 : s.fields.find? (fun y => decide (y.tag = f.tag)) = some f :=
    find?_unique Leaf.tag s.fields f hf
      (fun y hy e => unique_tag Leaf.tag s.fields hftags y f hy hf e (by rw [e]; exact hftag))
  have h3 : leafByName s.fields f.name = some f := by
    unfold leafByName
    rw [if_neg (hfnonempty f hf)]
    exact find?_unique Leaf.name s.fields f hf
      (fun y hy e => unique_name Leaf.name s.fields hfnames y f hy hf e)
  have h4 : findFieldName s.fields f.tag = f.name := by
    rw [findFieldName_eq, h2]
  have h5 : ¬ f.name.length = 0 := fun e => hfnonempty f hf (List.length_eq_zero.mp e)
  unfold bindKey
  rw [fieldByName_withValues, h1]
  simp only [Option.map_some', sectionWith, hkind, ne_eq, not_true_eq_false, if_false,
    findFieldName_map, h4, h5, leafByName_map, h3]
  unfold assign
  have hx' : coerce (leafWith last s.tag f).kind v = .value x := hx
  rw [hx']
  simp only []
  rw [setLeaf_withValues last t s f v x hwf' hs hstag hf hftag hx]

theorem withValues_none (t : Target) : withValues (fun _ _ => none) t = t := by
  unfold withValues
  have hleaf : ∀ sec, leafWith (fun _ _ => none) sec = id := by
    intro sec
    funext f
    rfl
  have hsec : sectionWith (fun _ _ => none) = id := by
    funext s
    unfold sectionWith
    rw [hleaf, List.map_id]
    rfl
  rw [hsec, List.map_id]

theorem any_section (t : Target) (p : Section → Bool) (h : t.any p = true) :
    ∃ s ∈ t, p s = true := by
  simpa [List.any_eq_true] using h

/-- The loop on a valid file, started from any table of last values: it runs to its
end and leaves the table extended by the assignments of the file. -/
theorem loop_valid (t : Target) (hwf : WellFormed t) (lines : List Str) :
    ∀ (idx : Nat) (sn : Str) (cur : Option Str) (last : Str → Str → Option Str),
      validLines t cur lines = true →
      (∀ n, cur = some n → n ≠ [] ∧ ∃ s ∈ t, s.tag = n ∧ s.kind = .struct ∧ sn = s.name) →
      ∃ sn', loop idx lines sn (withValues last t) =
        .next sn' (withValues (fun n k =>
          match lastValue (assignments cur lines) n k with
          | some v => some v
          | none => last n k) t) := by
  induction lines with
  | nil =>
    intro idx sn cur last _ _
    exact ⟨sn, rfl⟩
  | cons raw rest ih =>
    intro idx sn cur last hvalid hact
    unfold loop
    rw [processLine_eq_classify]
    unfold validLines at hvalid
    unfold assignments
    have hne := classify_nonempty raw
    cases hc : classify raw with
    | blank =>
      simp only [hc] at hvalid ⊢
      exact ih (idx + 1) sn cur last hvalid hact
    | comment =>
      simp only [hc] at hvalid ⊢
      exact ih (idx + 1) sn cur last hvalid hact
    | badHeader => simp [hc] at hvalid
    | badKeyValue => simp [hc] at hvalid
    | header n =>
      simp only [hc, Bool.and_eq_true] at hvalid ⊢
      obtain ⟨hsec, hrest⟩ := hvalid
      obtain ⟨s, hs, hp⟩ := any_section t _ hsec
      simp only [Bool.and_eq_true, decide_eq_true_eq] at hp
      have hn : n ≠ [] := hne.1 n hc
      have hfind : findStructName (withValues last t) n sn = s.name := by
        rw [findStructName_withValues, findStructName_eq, ← hp.1]
        rw [find?_unique Section.tag t s hs
          (fun y hy e => unique_tag Section.tag t hwf.2.2.1 y s hy hs e
            (by rw [e, hp.1]; exact hn))]
      rw [hfind]
      apply ih (idx + 1) s.name (some n) last hrest
      intro m hm
      simp only [Option.some.injEq] at hm
      subst hm
      exact ⟨hn, s, hs, hp.1, hp.2, rfl⟩
    | keyValue k v =>
      simp only [hc, Bool.and_eq_true] at hvalid ⊢
      obtain ⟨hkv, hrest⟩ := hvalid
      cases cur with
      | none => simp at hkv
      | some n =>
        simp only [] at hkv ⊢
        obtain ⟨hn, s, hs, hstag, hkind, hsn⟩ := hact n rfl
        obtain ⟨s', hs', hp⟩ := any_section t _ hkv
        simp only [Bool.and_eq_true, decide_eq_true_eq] at hp
        have hss : s' = s := unique_tag Section.tag t hwf.2.2.1 s' s hs' hs
          (hp.1.trans hstag.symm) (by rw [hp.1]; exact hn)
        subst hss
        obtain ⟨f, hf, hfp⟩ := List.any_eq_true.mp hp.2
        simp only [Bool.and_eq_true, decide_eq_true_eq] at hfp
        obtain ⟨hftag, hco⟩ := hfp
        have hk : k ≠ [] := hne.2 k v hc
        cases hx : coerce f.kind v with
        | typeError => simp [hx] at hco
        | unsupported => simp [hx] at hco
        | value x =>
          subst hftag
          subst hstag
          subst hsn
          rw [bindKey_valid idx last t s' f v x hwf hs hn hkind hf hk hx]
          simp only []
          obtain ⟨sn', hsn'⟩ := ih (idx + 1) s'.name (some s'.tag)
            (setLast last s'.tag f.tag v) hrest
            (fun m hm => by
              simp only [Option.some.injEq] at hm
              subst hm
              exact ⟨hn, s', hs, rfl, hkind, rfl⟩)
          refine ⟨sn', ?_⟩
          rw [hsn']
          congr 2
          funext a b
          simp only [lastValue, setLast]
          cases lastValue (assignments (some s'.tag) rest) a b with
          | some w => rfl
          | none =>
            simp only []
            by_cases hab : a = s'.tag ∧ b = f.tag
            · simp [hab]
            · have hab' : ¬ (s'.tag = a ∧ f.tag = b) := fun e => hab ⟨e.1.symm, e.2.symm⟩
              simp [hab, hab']

/-- C1. Last write wins: on a well-formed target, a file in which every line that is
neither blank nor a comment is a header naming a declared section or an assignment
that follows such a header, names a key declared in that section and carries a value
the field's kind accepts, is loaded with a nil error, and afterwards every leaf field
holds the coerced value of the last assignment to its pair of section and key, or,
when there is no such assignment, what it held before. -/
theorem last_write_wins (content : Str) (t : Target) (hwf : WellFormed t)
    (hvalid : validLines t none (splitCRLF content) = true) :
    loadContent content t =
      ⟨.ok, withValues (lastValue (assignments none (splitCRLF content))) t⟩ := by
  unfold loadContent loadLines
  obtain ⟨sn', h⟩ := loop_valid t hwf (splitCRLF content) 0 [] none (fun _ _ => none) hvalid
    (fun n hn => by simp at hn)
  rw [withValues_none] at h
  rw [h]
  unfold finish
  simp only [Result.mk.injEq, true_and]
  congr 1
  funext a b
  cases lastValue (assignments none (splitCRLF content)) a b <;> rfl

theorem last_write_wins_witness :
    WellFormed config ∧
    validLines config none
      (splitCRLF "[mysql]\r\nport=1\r\n; note\r\nport = 2\r\n[redis]\r\ntest=t".toList) = true ∧
    loadContent "[mysql]\r\nport=1\r\n; note\r\nport = 2\r\n[redis]\r\ntest=t".toList config =
      ⟨.ok, withValues (lastValue (assignments none
        (splitCRLF "[mysql]\r\nport=1\r\n; note\r\nport = 2\r\n[redis]\r\ntest=t".toList)))
        config⟩ :=
  ⟨by decide, by decide,
    last_write_wins "[mysql]\r\nport=1\r\n; note\r\nport = 2\r\n[redis]\r\ntest=t".toList config
      (by decide) (by decide)⟩

/-! ## The example of the specification -/

/-- C11. End-to-end example: the six lines of the specification, joined by
carriage-return/line-feed and loaded into the zero `Config`, give a nil error, set
the mysql address and port and the redis host and test flag, and leave every other
field at its zero value. -/
theorem end_to_end_example :
    loadContent
      "[mysql]\r\naddress=127.0.0.1\r\nport=3306\r\n[redis]\r\nhost=127.0.0.1\r\ntest=true".toList
      config =
    ⟨.ok,
      [ ⟨"MysqlConfig".toList, "mysql".toList, .struct,
          [ ⟨"Address".toList, "address".toList, .string, .str "127.0.0.1".toList⟩,
            ⟨"Port".toList, "port".toList, .int, .int 3306⟩,
            ⟨"Username".toList, "username".toList, .string, .str []⟩,
            ⟨"Password".toList, "password".toList, .string, .str []⟩ ]⟩,
        ⟨"RedisConfig".toList, "redis".toList, .struct,
          [ ⟨"Host".toList, "host".toList, .string, .str "127.0.0.1".toList⟩,
            ⟨"Port".toList, "post".toList, .int, .int 0⟩,
            ⟨"Password".toList, "password".toList, .string, .str []⟩,
            ⟨"Database".toList, "database".toList, .int, .int 0⟩,
            ⟨"Test".toList, "test".toList, .bool, .bool true⟩ ]⟩ ]⟩ := by
  decide

/-! ## Kinds and values -/

theorem coerce_unsupported (k : Kind) (val : Str)
    (hk : k ≠ .string ∧ isIntKind k = false ∧ k ≠ .bool) : coerce k val = .unsupported := by
  obtain ⟨h1, h2, h3⟩ := hk
  cases k <;> simp [isIntKind] at h1 h2 h3 <;> simp [coerce]

/-- C17. Unsupported kinds are left alone: a key-value line whose key resolves to a
field whose kind is none of string, the five signed integer kinds and bool produces
no error, whatever its value, and leaves `structName` and the whole target as they
were; the lines after it are processed from that same state. -/
theorem unsupported_kind_untouched (pre post : List Str) (raw key val sn : Str) (t0 t : Target)
    (s : Section) (f : Leaf)
    (hpre : loop 0 pre [] t0 = .next sn t)
    (hkv : classify raw = .keyValue key val)
    (hres : Resolves t sn key s f)
    (hkind : f.kind ≠ .string ∧ isIntKind f.kind = false ∧ f.kind ≠ .bool) :
    processLine pre.length raw sn t = .next sn t ∧
    loadLines (pre ++ raw :: post) t0 = finish (loop (pre.length + 1) post sn t) := by
  have hline : processLine pre.length raw sn t = .next sn t := by
    rw [processLine_keyValue _ _ _ _ _ _ hkv, bindKey_resolved _ _ _ _ _ _ _ hres]
    unfold assign
    rw [coerce_unsupported _ _ hkind]
  refine ⟨hline, ?_⟩
  rw [loadLines_split pre post raw sn t0 t hpre, hline]

theorem unsupported_kind_untouched_witness :
    loadLines ["[web]".toList, "ratio=0.5".toList, "depth=abc".toList]
        [⟨"Web".toList, "web".toList, .struct,
          [⟨"Ratio".toList, "ratio".toList, .float64, .other 0⟩,
            ⟨"Depth".toList, "depth".toList, .uint, .other 0⟩]⟩] =
      finish (loop 2 ["depth=abc".toList] "Web".toList
        [⟨"Web".toList, "web".toList, .struct,
          [⟨"Ratio".toList, "ratio".toList, .float64, .other 0⟩,
            ⟨"Depth".toList, "depth".toList, .uint, .other 0⟩]⟩]) :=
  (unsupported_kind_untouched ["[web]".toList] ["depth=abc".toList] "ratio=0.5".toList
    "ratio".toList "0.5".toList "Web".toList _ _
    ⟨"Web".toList, "web".toList, .struct,
      [⟨"Ratio".toList, "ratio".toList, .float64, .other 0⟩,
        ⟨"Depth".toList, "depth".toList, .uint, .other 0⟩]⟩
    ⟨"Ratio".toList, "ratio".toList, .float64, .other 0⟩
    (by decide) (by decide) (by decide) (by decide)).2

theorem takeWhile_first (pre post : Str) (c : Char) (h : c ∉ pre) :
    (pre ++ c :: post).takeWhile (fun x => decide (x ≠ c)) = pre := by
  induction pre with
  | nil => simp [List.takeWhile]
  | cons x xs ih =>
    simp only [List.mem_cons, not_or] at h
    have hx : decide (x ≠ c) = true := decide_eq_true (fun e => h.1 e.symm)
    simp only [List.cons_append, List.takeWhile_cons, hx, if_true, ih h.2]

theorem dropWhile_first (pre post : Str) (c : Char) (h : c ∉ pre) :
    (pre ++ c :: post).dropWhile (fun x => decide (x ≠ c)) = c :: post := by
  induction pre with
  | nil => simp [List.dropWhile]
  | cons x xs ih =>
    simp only [List.mem_cons, not_or] at h
    have hx : decide (x ≠ c) = true := decide_eq_true (fun e => h.1 e.symm)
    simp only [List.cons_append, List.dropWhile_cons, hx, if_true, ih h.2]

/-- The class of a line whose trimmed text has its first `=` after the non-empty
text `pre`, which starts with none of `;`, `#`, `[`. -/
theorem classify_keyValue (raw pre post : Str) (hline : trimSpace raw = pre ++ '=' :: post)
    (hfirst : '=' ∉ pre) (hne : pre ≠ [])
    (hhead : pre.head? ≠ some ';' ∧ pre.head? ≠ some '#' ∧ pre.head? ≠ some '[') :
    classify raw = .keyValue (trimSpace pre) (trimSpace post) := by
  unfold classify
  cases pre with
  | nil => exact absurd rfl hne
  | cons c pre' =>
    rw [hline]
    simp only [List.head?_cons, ne_eq, Option.some.injEq] at hhead
    obtain ⟨h1, h2, h3⟩ := hhead
    simp only [List.mem_cons, not_or] at hfirst
    have h4 : ¬ c = '=' := fun e => hfirst.1 e.symm
    have hmem : '=' ∈ c :: (pre' ++ '=' :: post) := by simp
    have htake := takeWhile_first (c :: pre') post '=' (by simp [hfirst.1, hfirst.2])
    have hdrop := dropWhile_first (c :: pre') post '=' (by simp [hfirst.1, hfirst.2])
    simp only [List.cons_append] at htake hdrop ⊢
    simp only [h1, h2, h3, h4, or_self, if_false, hmem, not_true_eq_false, htake, hdrop,
      List.drop_succ_cons, List.drop_zero]

/-- C13. Split on the first `=`: for a well-formed assignment line the key is the
trimmed text before the first `=` and the value the trimmed text after it, whatever
characters that text contains; a field of kind string holds exactly that value
afterwards. -/
theorem split_on_first_equals (idx : Nat) (raw pre post sn : Str) (t : Target)
    (hline : trimSpace raw = pre ++ '=' :: post)
    (hfirst : '=' ∉ pre) (hne : pre ≠ [])
    (hhead : pre.head? ≠ some ';' ∧ pre.head? ≠ some '#' ∧ pre.head? ≠ some '[') :
    processLine idx raw sn t = bindKey idx (trimSpace pre) (trimSpace post) sn t ∧
    ∀ s f, Resolves t sn (trimSpace pre) s f → f.kind = .string →
      processLine idx raw sn t = .next sn (setLeaf t sn f.name (.str (trimSpace post))) ∧
      readLeaf (setLeaf t sn f.name (.str (trimSpace post))) sn f.name =
        some (.str (trimSpace post)) := by
  have hkv := classify_keyValue raw pre post hline hfirst hne hhead
  have hline' := processLine_keyValue idx raw _ _ sn t hkv
  refine ⟨hline', ?_⟩
  intro s f hres hkind
  constructor
  · rw [hline', bindKey_resolved _ _ _ _ _ _ _ hres]
    unfold assign coerce
    rw [hkind]
  · obtain ⟨h1, _, _, h4⟩ := hres
    have hname := leafByName_name _ _ _ h4
    rw [← hname] at h4
    exact readLeaf_setLeaf t sn f.name s f _ h1 h4

theorem split_on_first_equals_witness :
    processLine 1 " address = a=b [x];#y ".toList "MysqlConfig".toList config =
      .next "MysqlConfig".toList
        (setLeaf config "MysqlConfig".toList "Address".toList (.str "a=b [x];#y".toList)) ∧
    readLeaf (setLeaf config "MysqlConfig".toList "Address".toList (.str "a=b [x];#y".toList))
      "MysqlConfig".toList "Address".toList = some (.str "a=b [x];#y".toList) :=
  (split_on_first_equals 1 " address = a=b [x];#y ".toList "address ".toList
    " a=b [x];#y".toList "MysqlConfig".toList config (by decide) (by decide) (by decide)
    (by decide)).2 ⟨"MysqlConfig".toList, "mysql".toList, .struct, mysqlConfig⟩
    ⟨"Address".toList, "address".toList, .string, .str []⟩ (by decide) (by decide)

/-! ## The Line Splitter -/

theorem splitCRLF_ne_nil (s : Str) : splitCRLF s ≠ [] := by
  induction s using splitCRLF.induct with
  | case1 => simp [splitCRLF]
  | case2 c => simp [splitCRLF]
  | case3 c d rest h ih => simp [splitCRLF, h]
  | case4 c d rest h ih =>
    unfold splitCRLF
    rw [if_neg h]
    split <;> simp
  | case5 c d rest h l ls hl ih =>
    unfold splitCRLF
    rw [if_neg h]
    split <;> simp

/-- The pieces of the split, joined by carriage-return/line-feed, are the content. -/
theorem intercalate_splitCRLF (s : Str) :
    List.intercalate ['\r', '\n'] (splitCRLF s) = s := by
  induction s using splitCRLF.induct with
  | case1 => rfl
  | case2 c => rfl
  | case3 c d rest h ih =>
    unfold splitCRLF
    rw [if_pos h]
    cases hs : splitCRLF rest with
    | nil => exact absurd hs (splitCRLF_ne_nil rest)
    | cons l ls =>
      rw [hs] at ih
      rw [← ih, h.1, h.2]
      simp [List.intercalate, List.intersperse]
  | case4 c d rest h hs ih => exact absurd hs (splitCRLF_ne_nil _)
  | case5 c d rest h l ls hl ih =>
    unfold splitCRLF
    rw [if_neg h, hl]
    rw [hl] at ih
    simp only []
    rw [← ih]
    cases ls <;> simp [List.intercalate, List.intersperse]

/-- The first piece of the split is empty or starts as the content does. -/
theorem splitCRLF_head (s : Str) (l : Str) (ls : List Str) (h : splitCRLF s = l :: ls) :
    l = [] ∨ l.head? = s.head? := by
  cases s with
  | nil =>
    simp [splitCRLF] at h
    exact Or.inl h.1
  | cons c rest =>
    cases rest with
    | nil =>
      simp [splitCRLF] at h
      right
      rw [← h.1]
    | cons d rest' =>
      unfold splitCRLF at h
      by_cases hc : c = '\r' ∧ d = '\n'
      · rw [if_pos hc] at h
        simp only [List.cons.injEq] at h
        exact Or.inl h.1.symm
      · rw [if_neg hc] at h
        split at h
        · simp only [List.cons.injEq] at h
          right
          rw [← h.1]
          rfl
        · simp only [List.cons.injEq] at h
          right
          rw [← h.1]
          rfl

theorem hasCRLF_cons (c : Char) (l : Str) (hl : hasCRLF l = false)
    (hc : ¬ (c = '\r' ∧ l.head? = some '\n')) : hasCRLF (c :: l) = false := by
  cases l with
  | nil => rfl
  | cons d l' =>
    unfold hasCRLF
    simp only [List.head?_cons, Option.some.injEq] at hc
    simp only [Bool.or_eq_false_iff, Bool.and_eq_false_imp, decide_eq_true_eq,
      decide_eq_false_iff_not]
    exact ⟨fun h1 h2 => hc ⟨h1, h2⟩, hl⟩

/-- No piece of the split contains carriage-return/line-feed. -/
theorem splitCRLF_pieces (s : Str) : ∀ piece ∈ splitCRLF s, hasCRLF piece = false := by
  induction s using splitCRLF.induct with
  | case1 => simp [splitCRLF, hasCRLF]
  | case2 c => simp [splitCRLF, hasCRLF]
  | case3 c d rest h ih =>
    unfold splitCRLF
    rw [if_pos h]
    intro piece hp
    rcases List.mem_cons.mp hp with hp | hp
    · rw [hp]; rfl
    · exact ih piece hp
  | case4 c d rest h hs ih => exact absurd hs (splitCRLF_ne_nil _)
  | case5 c d rest h l ls hl ih =>
    unfold splitCRLF
    rw [if_neg h, hl]
    simp only []
    intro piece hp
    rw [hl] at ih
    rcases List.mem_cons.mp hp with hp | hp
    · rw [hp]
      apply hasCRLF_cons c l (ih l (List.mem_cons_self _ _))
      rintro ⟨h1, h2⟩
      rcases splitCRLF_head _ _ _ hl with h0 | h0
      · rw [h0] at h2
        simp at h2
      · rw [h0] at h2
        simp only [List.head?_cons, Option.some.injEq] at h2
        exact h ⟨h1, h2⟩
    · exact ih piece (List.mem_cons_of_mem _ hp)

/-- A content without carriage-return/line-feed is one line. -/
theorem splitCRLF_single (s : Str) (h : hasCRLF s = false) : splitCRLF s = [s] := by
  induction s using splitCRLF.induct with
  | case1 => rfl
  | case2 c => rfl
  | case3 c d rest hc ih =>
    unfold hasCRLF at h
    simp [hc.1, hc.2] at h
  | case4 c d rest hc hs ih => exact absurd hs (splitCRLF_ne_nil _)
  | case5 c d rest hc l ls hl ih =>
    unfold hasCRLF at h
    simp only [Bool.or_eq_false_iff] at h
    have := ih h.2
    rw [hl] at this
    simp only [List.cons.injEq] at this
    unfold splitCRLF
    rw [if_neg hc, hl]
    simp only [this.1, this.2]

theorem splitCRLF_append_sep (l s : Str) (hl : hasCRLF l = false) :
    splitCRLF (l ++ '\r' :: '\n' :: s) = l :: splitCRLF s := by
  induction l with
  | nil =>
    have hstep : splitCRLF ([] ++ '\r' :: '\n' :: s) =
        if '\r' = '\r' ∧ '\n' = '\n' then [] :: splitCRLF s
        else
          match splitCRLF ('\n' :: s) with
          | [] => [['\r']]
          | l :: ls => ('\r' :: l) :: ls := rfl
    rw [hstep, if_pos ⟨rfl, rfl⟩]
  | cons c tl ih =>
    cases tl with
    | nil =>
      have hstep : splitCRLF ([c] ++ '\r' :: '\n' :: s) =
          if c = '\r' ∧ '\r' = '\n' then [] :: splitCRLF ('\n' :: s)
          else
            match splitCRLF ('\r' :: '\n' :: s) with
            | [] => [[c]]
            | l :: ls => (c :: l) :: ls := rfl
      have hsep : splitCRLF ('\r' :: '\n' :: s) = [] :: splitCRLF s := by
        have := ih rfl
        rwa [List.nil_append] at this
      rw [hstep, if_neg (fun e => absurd e.2 (by decide)), hsep]
    | cons d tl' =>
      have hstep : splitCRLF (c :: d :: tl' ++ '\r' :: '\n' :: s) =
          if c = '\r' ∧ d = '\n' then [] :: splitCRLF (tl' ++ '\r' :: '\n' :: s)
          else
            match splitCRLF (d :: tl' ++ '\r' :: '\n' :: s) with
            | [] => [[c]]
            | l :: ls => (c :: l) :: ls := rfl
      have hc : hasCRLF (c :: d :: tl') =
          ((decide (c = '\r') && decide (d = '\n')) || hasCRLF (d :: tl')) := rfl
      rw [hc, Bool.or_eq_false_iff] at hl
      have hcd : ¬ (c = '\r' ∧ d = '\n') := by
        intro e
        have := hl.1
        simp [e.1, e.2] at this
      rw [hstep, if_neg hcd, ih hl.2]

theorem intercalate_cons_cons (sep l l' : Str) (rest : List Str) :
    List.intercalate sep (l :: l' :: rest) = l ++ sep ++ List.intercalate sep (l' :: rest) := by
  simp [List.intercalate, List.intersperse]

/-- Lines without carriage-return/line-feed, joined by that sequence, are split
into those same lines. -/
theorem splitCRLF_intercalate (lines : List Str) (hne : lines ≠ [])
    (h : ∀ l ∈ lines, hasCRLF l = false) :
    splitCRLF (List.intercalate ['\r', '\n'] lines) = lines := by
  induction lines with
  | nil => exact absurd rfl hne
  | cons l rest ih =>
    cases rest with
    | nil =>
      have : List.intercalate ['\r', '\n'] [l] = l := by simp [List.intercalate]
      rw [this]
      exact splitCRLF_single l (h l (List.mem_cons_self _ _))
    | cons l' rest' =>
      rw [intercalate_cons_cons, List.append_assoc]
      have hsep : ['\r', '\n'] ++ List.intercalate ['\r', '\n'] (l' :: rest') =
          '\r' :: '\n' :: List.intercalate ['\r', '\n'] (l' :: rest') := rfl
      rw [hsep, splitCRLF_append_sep l _ (h l (List.mem_cons_self _ _)),
        ih (by simp) (fun x hx => h x (List.mem_cons_of_mem _ hx))]

/-- C12. Line splitting: the content is cut exactly at the carriage-return/line-feed
sequences (the pieces joined by that sequence give the content back, no piece
contains it, and lines joined by it are split into those lines); the call runs the
loop over those pieces, so that when the pieces before one are processed without
leaving the loop and that piece fails, the call returns its error with the 1-based
position of the piece as line number, and when no piece fails the call returns a nil
error; a content without that sequence is therefore a single line, the call does
what the class of that one line dictates, and an error it returns carries line
number 1. -/
theorem line_splitting (content : Str) (t : Target) :
    List.intercalate ['\r', '\n'] (splitCRLF content) = content ∧
    (∀ piece ∈ splitCRLF content, hasCRLF piece = false) ∧
    (∀ lines : List Str, lines ≠ [] → (∀ l ∈ lines, hasCRLF l = false) →
      splitCRLF (List.intercalate ['\r', '\n'] lines) = lines ∧
      loadContent (List.intercalate ['\r', '\n'] lines) t = loadLines lines t) ∧
    (∀ (pre post : List Str) (raw sn : Str) (t' t'' : Target) (o : Outcome),
      splitCRLF content = pre ++ raw :: post →
      loop 0 pre [] t = .next sn t' →
      processLine pre.length raw sn t' = .halt o t'' →
      loadContent content t = ⟨o, t''⟩ ∧
      ∀ e n, o = .error e → e.line = some n → n = pre.length + 1) ∧
    (∀ (sn : Str) (t' : Target), loop 0 (splitCRLF content) [] t = .next sn t' →
      loadContent content t = ⟨.ok, t'⟩) ∧
    (hasCRLF content = false →
      splitCRLF content = [content] ∧
      loadContent content t =
        match classify content with
        | .blank => ⟨.ok, t⟩
        | .comment => ⟨.ok, t⟩
        | .header _ => ⟨.ok, t⟩
        | .badHeader => ⟨.error (.sectionSyntax 1), t⟩
        | .keyValue _ _ => ⟨.panic, t⟩
        | .badKeyValue => ⟨.error (.keyValueSyntax 1), t⟩) := by
  refine ⟨intercalate_splitCRLF content, splitCRLF_pieces content, ?_, ?_, ?_, ?_⟩
  · intro lines hne hl
    have hs := splitCRLF_intercalate lines hne hl
    refine ⟨hs, ?_⟩
    unfold loadContent
    rw [hs]
  · intro pre post raw sn t' t'' o hsplit hpre hline
    constructor
    · unfold loadContent
      rw [hsplit]
      exact loadLines_halt pre post raw sn t t' t'' o hpre hline
    · intro e n he hn
      subst he
      exact (processLine_halt _ _ _ _ _ _ hline).2 e rfl n hn
  · intro sn t' hloop
    unfold loadContent loadLines
    rw [hloop]
    rfl
  · intro h
    have hs := splitCRLF_single content h
    refine ⟨hs, ?_⟩
    unfold loadContent loadLines
    rw [hs]
    unfold loop
    rw [processLine_eq_classify]
    cases classify content with
    | blank => rfl
    | comment => rfl
    | header n => rfl
    | badHeader => rfl
    | badKeyValue => rfl
    | keyValue k v =>
      simp only [bindKey, fieldByName, if_true]
      rfl

theorem line_splitting_witness :
    (hasCRLF "[mysql]\nport=1".toList = false ∧
      loadContent "[mysql]\nport=1".toList config = ⟨.error (.sectionSyntax 1), config⟩) ∧
    (splitCRLF "[mysql]\r\nport=1\r\nnovalue\r\nport=2".toList =
        ["[mysql]".toList, "port=1".toList] ++ "novalue".toList :: ["port=2".toList] ∧
      loadContent "[mysql]\r\nport=1\r\nnovalue\r\nport=2".toList config =
        ⟨.error (.keyValueSyntax 3),
          setLeaf config "MysqlConfig".toList "Port".toList (.int 1)⟩) :=
  ⟨⟨by decide,
      ((line_splitting "[mysql]\nport=1".toList config).2.2.2.2.2 (by decide)).2.trans
        (by decide)⟩,
    ⟨by decide,
      ((line_splitting "[mysql]\r\nport=1\r\nnovalue\r\nport=2".toList config).2.2.2.1
        ["[mysql]".toList, "port=1".toList] ["port=2".toList] "novalue".toList
        "MysqlConfig".toList (setLeaf config "MysqlConfig".toList "Port".toList (.int 1))
        (setLeaf config "MysqlConfig".toList "Port".toList (.int 1))
        (.error (.keyValueSyntax 3)) (by decide) (by decide) (by decide)).1⟩⟩

/-! ## Blank and comment lines -/

theorem assign_succ (k idx : Nat) (hk : k ≤ idx) (sn fn : Str) (f : Leaf) (val : Str)
    (t : Target) :
    assign (idx + 1) sn fn f val t = (assign idx sn fn f val t).bump k := by
  unfold assign
  split
  · rfl
  · have : k < idx + 1 := by omega
    simp [Step.bump, Outcome.bump, Err.bump, this]
  · rfl

theorem bindKey_succ (k idx : Nat) (hk : k ≤ idx) (key val sn : Str) (t : Target) :
    bindKey (idx + 1) key val sn t = (bindKey idx key val sn t).bump k := by
  unfold bindKey
  split
  · rfl
  · split
    · rfl
    · simp only []
      split
      · rfl
      · split
        · rfl
        · exact assign_succ k idx hk _ _ _ _ _

theorem processLine_succ (k idx : Nat) (hk : k ≤ idx) (raw sn : Str) (t : Target) :
    processLine (idx + 1) raw sn t = (processLine idx raw sn t).bump k := by
  have : k < idx + 1 := by omega
  rw [processLine_eq_classify, processLine_eq_classify]
  cases classify raw with
  | blank => rfl
  | comment => rfl
  | header n => rfl
  | badHeader => simp [Step.bump, Outcome.bump, Err.bump, this]
  | badKeyValue => simp [Step.bump, Outcome.bump, Err.bump, this]
  | keyValue key val => exact bindKey_succ k idx hk _ _ _ _

theorem loop_cons (idx : Nat) (raw : Str) (rest : List Str) (sn : Str) (t : Target) :
    loop idx (raw :: rest) sn t =
      match processLine idx raw sn t with
      | .next sn' t' => loop (idx + 1) rest sn' t'
      | .halt o t' => .halt o t' := rfl

/-- The loop started one index later returns the same step, renumbered. -/
theorem loop_succ (k : Nat) (lines : List Str) :
    ∀ (idx : Nat) (sn : Str) (t : Target), k ≤ idx →
      loop (idx + 1) lines sn t = (loop idx lines sn t).bump k := by
  induction lines with
  | nil => intro idx sn t _; rfl
  | cons raw rest ih =>
    intro idx sn t hk
    unfold loop
    rw [processLine_succ k idx hk]
    cases processLine idx raw sn t with
    | next sn' t' =>
      simp only [Step.bump]
      exact ih (idx + 1) sn' t' (by omega)
    | halt o t' => rfl

/-- An error the loop returns carries the number of one of its lines. -/
theorem loop_halt_line (lines : List Str) :
    ∀ (idx : Nat) (sn : Str) (t t' : Target) (e : Err) (n : Nat),
      loop idx lines sn t = .halt (.error e) t' → e.line = some n →
      idx < n ∧ n ≤ idx + lines.length := by
  induction lines with
  | nil =>
    intro idx sn t t' e n h _
    simp [loop] at h
  | cons raw rest ih =>
    intro idx sn t t' e n h hn
    unfold loop at h
    cases hp : processLine idx raw sn t with
    | next sn' t'' =>
      rw [hp] at h
      have := ih (idx + 1) sn' t'' t' e n h hn
      simp only [List.length_cons]
      omega
    | halt o t'' =>
      rw [hp] at h
      simp only [Step.halt.injEq] at h
      obtain ⟨h1, _⟩ := h
      subst h1
      have := (processLine_halt idx raw sn t t'' _ hp).2 e rfl n hn
      simp only [List.length_cons]
      omega

theorem Err.bump_of_le (k n : Nat) (e : Err) (hn : e.line = some n) (hle : n ≤ k) :
    e.bump k = e := by
  have : ¬ k < n := by omega
  cases e <;> simp [Err.line] at hn <;> subst hn <;> simp [Err.bump, this]

theorem Err.bump_of_no_line (k : Nat) (e : Err) (hn : e.line = none) : e.bump k = e := by
  cases e <;> simp [Err.line] at hn <;> rfl

/-- C16. Blank and comment lines are inert: a line that is empty after trimming, or
whose trimmed text starts with `;` or `#`, leaves `structName` and the target as they
were in every state; inserted anywhere in a file it leaves the final target and the
outcome the same, except that an error of a later line carries a line number one
greater. -/
theorem blank_comment_inert (pre post : List Str) (raw : Str) (t0 : Target)
    (hskip : trimSpace raw = [] ∨ (trimSpace raw).head? = some ';' ∨
      (trimSpace raw).head? = some '#') :
    (∀ (idx : Nat) (sn : Str) (t : Target), processLine idx raw sn t = .next sn t) ∧
    loadLines (pre ++ raw :: post) t0 =
      ⟨(loadLines (pre ++ post) t0).outcome.bump pre.length,
        (loadLines (pre ++ post) t0).target⟩ := by
  have hline : ∀ (idx : Nat) (sn : Str) (t : Target), processLine idx raw sn t = .next sn t := by
    intro idx sn t
    rw [processLine_eq_classify]
    unfold classify
    cases hl : trimSpace raw with
    | nil => rfl
    | cons c rest =>
      rw [hl] at hskip
      simp only [List.head?_cons, Option.some.injEq] at hskip
      rcases hskip with h | h | h
      · simp at h
      · simp [h]
      · simp [h]
  refine ⟨hline, ?_⟩
  unfold loadLines
  rw [loop_append, loop_append]
  cases hp : loop 0 pre [] t0 with
  | halt o t' =>
    simp only [finish]
    congr 1
    cases o with
    | ok => rfl
    | panic => rfl
    | error e =>
      simp only [Outcome.bump, Outcome.error.injEq]
      cases hn : e.line with
      | none => exact (Err.bump_of_no_line _ e hn).symm
      | some n =>
        have := loop_halt_line pre 0 [] t0 t' e n hp hn
        exact (Err.bump_of_le _ n e hn (by omega)).symm
  | next sn t =>
    simp only [Nat.zero_add]
    rw [loop_cons, hline]
    simp only []
    rw [loop_succ pre.length post pre.length sn t (Nat.le_refl _)]
    cases loop pre.length post sn t with
    | next sn' t' => rfl
    | halt o t' => rfl

theorem blank_comment_inert_witness :
    loadLines ["[mysql]".toList, " # [broken".toList, "port=abc".toList] config =
      ⟨.error (.valueType 3), config⟩ ∧
    loadLines ["[mysql]".toList, "port=abc".toList] config = ⟨.error (.valueType 2), config⟩ :=
  ⟨(blank_comment_inert ["[mysql]".toList] ["port=abc".toList] " # [broken".toList config
      (by decide)).2.trans (by decide), by decide⟩

/-! ## First match and frame -/

theorem updateFirst_append {α : Type} (p : α → Bool) (g : α → α) (pre post : List α) (b : α)
    (hpre : ∀ a ∈ pre, p a = false) (hb : p b = true) :
    updateFirst p g (pre ++ b :: post) = pre ++ g b :: post := by
  induction pre with
  | nil => simp [updateFirst, hb]
  | cons x xs ih =>
    have hx : p x = false := hpre x (List.mem_cons_self _ _)
    simp only [List.cons_append, updateFirst, hx, Bool.false_eq_true, if_false, List.cons.injEq,
      true_and]
    exact ih (fun a ha => hpre a (List.mem_cons_of_mem _ ha))

theorem find?_append_first {α : Type} (p : α → Bool) (pre post : List α) (b : α)
    (hpre : ∀ a ∈ pre, p a = false) (hb : p b = true) :
    (pre ++ b :: post).find? p = some b := by
  induction pre with
  | nil => simp [List.find?, hb]
  | cons x xs ih =>
    have hx : p x = false := hpre x (List.mem_cons_self _ _)
    simp only [List.cons_append, List.find?, hx]
    exact ih (fun a ha => hpre a (List.mem_cons_of_mem _ ha))

theorem find?_decomp {α : Type} (p : α → Bool) (l : List α) (b : α)
    (h : l.find? p = some b) :
    ∃ pre post, l = pre ++ b :: post ∧ (∀ a ∈ pre, p a = false) ∧ p b = true := by
  induction l with
  | nil => simp at h
  | cons x xs ih =>
    by_cases hx : p x = true
    · simp only [List.find?, hx, Option.some.injEq] at h
      subst h
      exact ⟨[], xs, rfl, by simp, hx⟩
    · simp only [Bool.not_eq_true] at hx
      simp only [List.find?, hx] at h
      obtain ⟨pre, post, h1, h2, h3⟩ := ih h
      refine ⟨x :: pre, post, by rw [h1]; rfl, ?_, h3⟩
      intro a ha
      rcases List.mem_cons.mp ha with ha | ha
      · rw [ha]; exact hx
      · exact h2 a ha

/-- The binding of a key to the first field annotated with it, in the section that
is the first direct field of its name: exactly that field is written. -/
theorem bindKey_first_match (idx : Nat) (tpre tpost : List Section) (s : Section)
    (fpre fpost : List Leaf) (f : Leaf) (val : Str)
    (hsfirst : ∀ y ∈ tpre, y.name ≠ s.name) (hname : s.name ≠ []) (hkind : s.kind = .struct)
    (hfields : s.fields = fpre ++ f :: fpost)
    (hftag : ∀ g ∈ fpre, g.tag ≠ f.tag) (hfnm : ∀ g ∈ fpre, g.name ≠ f.name)
    (hfname : f.name ≠ []) :
    bindKey idx f.tag val s.name (tpre ++ s :: tpost) =
      match coerce f.kind val with
      | .value x =>
        .next s.name (tpre ++ { s with fields := fpre ++ { f with val := x } :: fpost } :: tpost)
      | .typeError => .halt (.error (.valueType (idx + 1))) (tpre ++ s :: tpost)
      | .unsupported => .next s.name (tpre ++ s :: tpost) := by
  have h1 : fieldByName (tpre ++ s :: tpost) s.name = some s := by
    unfold fieldByName
    rw [if_neg hname]
    exact find?_append_first _ tpre tpost s (fun a ha => by simpa using hsfirst a ha) (by simp)
  have h2 : findFieldName s.fields f.tag = f.name := by
    rw [findFieldName_eq, hfields,
      find?_append_first _ fpre fpost f (fun a ha => by simpa using hftag a ha) (by simp)]
  have h3 : leafByName s.fields f.name = some f := by
    unfold leafByName
    rw [if_neg hfname, hfields]
    exact find?_append_first _ fpre fpost f (fun a ha => by simpa using hfnm a ha) (by simp)
  have h4 : ¬ f.name.length = 0 := fun e => hfname (List.length_eq_zero.mp e)
  unfold bindKey
  rw [h1]
  simp only [hkind, ne_eq, not_true_eq_false, if_false, h2, h4, h3]
  unfold assign
  cases coerce f.kind val with
  | typeError => rfl
  | unsupported => rfl
  | value x =>
    simp only []
    unfold setLeaf
    rw [updateFirst_append _ _ tpre tpost s (fun a ha => by simpa using hsfirst a ha) (by simp)]
    rw [hfields,
      updateFirst_append _ _ fpre fpost f (fun a ha => by simpa using hfnm a ha) (by simp)]
    simp only [hkind]

/-- C15. First match wins: a header activates the first direct field carrying its
name as annotation, whatever fields follow it, and an assignment is written to the
first field of the active section carrying the key as annotation, the fields after
it - another one with the same annotation included - keeping their contents; no
error is returned. -/
theorem first_match_wins (idx : Nat) (tpre tpost : List Section) (s : Section)
    (fpre fpost : List Leaf) (f : Leaf) (x : Value)
    (hsfirst : ∀ y ∈ tpre, y.tag ≠ s.tag ∧ y.name ≠ s.name)
    (hname : s.name ≠ []) (hkind : s.kind = .struct)
    (hfields : s.fields = fpre ++ f :: fpost)
    (hffirst : ∀ g ∈ fpre, g.tag ≠ f.tag ∧ g.name ≠ f.name) (hfname : f.name ≠ []) :
    (∀ raw sn, classify raw = .header s.tag →
      processLine idx raw sn (tpre ++ s :: tpost) = .next s.name (tpre ++ s :: tpost)) ∧
    (∀ raw val, classify raw = .keyValue f.tag val → coerce f.kind val = .value x →
      processLine idx raw s.name (tpre ++ s :: tpost) =
        .next s.name
          (tpre ++ { s with fields := fpre ++ { f with val := x } :: fpost } :: tpost)) := by
  constructor
  · intro raw sn hc
    rw [processLine_eq_classify, hc]
    simp only []
    rw [findStructName_eq,
      find?_append_first _ tpre tpost s (fun a ha => by simpa using (hsfirst a ha).1) (by simp)]
  · intro raw val hc hx
    rw [processLine_keyValue _ _ _ _ _ _ hc,
      bindKey_first_match idx tpre tpost s fpre fpost f val (fun y hy => (hsfirst y hy).2) hname
        hkind hfields (fun g hg => (hffirst g hg).1) (fun g hg => (hffirst g hg).2) hfname, hx]

theorem first_match_wins_witness :
    processLine 0 "[db]".toList []
        [⟨"A".toList, "db".toList, .struct,
            [⟨"X".toList, "k".toList, .string, .str []⟩, ⟨"Y".toList, "k".toList, .string, .str []⟩]⟩,
          ⟨"B".toList, "db".toList, .struct, [⟨"X".toList, "k".toList, .string, .str []⟩]⟩] =
      .next "A".toList
        [⟨"A".toList, "db".toList, .struct,
            [⟨"X".toList, "k".toList, .string, .str []⟩, ⟨"Y".toList, "k".toList, .string, .str []⟩]⟩,
          ⟨"B".toList, "db".toList, .struct, [⟨"X".toList, "k".toList, .string, .str []⟩]⟩] ∧
    processLine 1 "k=v".toList "A".toList
        [⟨"A".toList, "db".toList, .struct,
            [⟨"X".toList, "k".toList, .string, .str []⟩, ⟨"Y".toList, "k".toList, .string, .str []⟩]⟩,
          ⟨"B".toList, "db".toList, .struct, [⟨"X".toList, "k".toList, .string, .str []⟩]⟩] =
      .next "A".toList
        [⟨"A".toList, "db".toList, .struct,
            [⟨"X".toList, "k".toList, .string, .str "v".toList⟩,
              ⟨"Y".toList, "k".toList, .string, .str []⟩]⟩,
          ⟨"B".toList, "db".toList, .struct, [⟨"X".toList, "k".toList, .string, .str []⟩]⟩] :=
  ⟨(first_match_wins 0 []
      [⟨"B".toList, "db".toList, .struct, [⟨"X".toList, "k".toList, .string, .str []⟩]⟩]
      ⟨"A".toList, "db".toList, .struct,
        [⟨"X".toList, "k".toList, .string, .str []⟩, ⟨"Y".toList, "k".toList, .string, .str []⟩]⟩
      [] [⟨"Y".toList, "k".toList, .string, .str []⟩] ⟨"X".toList, "k".toList, .string, .str []⟩
      (.str "v".toList) (by decide) (by decide) (by decide) (by decide) (by decide)
      (by decide)).1 "[db]".toList [] (by decide),
   (first_match_wins 1 []
      [⟨"B".toList, "db".toList, .struct, [⟨"X".toList, "k".toList, .string, .str []⟩]⟩]
      ⟨"A".toList, "db".toList, .struct,
        [⟨"X".toList, "k".toList, .string, .str []⟩, ⟨"Y".toList, "k".toList, .string, .str []⟩]⟩
      [] [⟨"Y".toList, "k".toList, .string, .str []⟩] ⟨"X".toList, "k".toList, .string, .str []⟩
      (.str "v".toList) (by decide) (by decide) (by decide) (by decide) (by decide)
      (by decide)).2 "k=v".toList "v".toList (by decide) (by decide)⟩

/-- The write of the loop, described by position: the first direct field named
`sn` and, in it, the first field named `fn`. -/
theorem setLeaf_decomp (t : Target) (sn fn : Str) (x : Value) (s : Section) (f : Leaf)
    (hs : fieldByName t sn = some s) (hf : leafByName s.fields fn = some f) :
    ∃ tpre tpost fpre fpost, t = tpre ++ s :: tpost ∧ s.name = sn ∧
      s.fields = fpre ++ f :: fpost ∧ f.name = fn ∧
      setLeaf t sn fn x =
        tpre ++ { s with fields := fpre ++ { f with val := x } :: fpost } :: tpost := by
  unfold fieldByName at hs
  unfold leafByName at hf
  by_cases hsn : sn = []
  · simp [hsn] at hs
  by_cases hfn : fn = []
  · simp [hfn] at hf
  rw [if_neg hsn] at hs
  rw [if_neg hfn] at hf
  obtain ⟨tpre, tpost, ht, htpre, hts⟩ := find?_decomp _ t s hs
  obtain ⟨fpre, fpost, hfl, hfpre, hff⟩ := find?_decomp _ s.fields f hf
  refine ⟨tpre, tpost, fpre, fpost, ht, by simpa using hts, hfl, by simpa using hff, ?_⟩
  unfold setLeaf
  rw [ht, updateFirst_append _ _ tpre tpost s htpre hts]
  rw [hfl, updateFirst_append _ _ fpre fpost f hfpre hff]

/-- C20. Single-field frame: a line that is not a key-value line leaves the target
as it was, and a key-value line leaves it as it was or changes the contents of
exactly one field, the field annotated with the key in the direct field named by
`structName`; all other fields and sections stay as they were. -/
theorem single_field_frame (idx : Nat) (raw sn : Str) (t : Target) (hnd : NamesDistinct t) :
    ((∀ key val, classify raw ≠ .keyValue key val) → (processLine idx raw sn t).target = t) ∧
    (∀ key val, classify raw = .keyValue key val →
      (processLine idx raw sn t).target = t ∨
      ∃ tpre s tpost fpre f fpost x,
        t = tpre ++ s :: tpost ∧ s.name = sn ∧ s.fields = fpre ++ f :: fpost ∧ f.tag = key ∧
        (processLine idx raw sn t).target =
          tpre ++ { s with fields := fpre ++ { f with val := x } :: fpost } :: tpost) := by
  constructor
  · intro hnot
    rw [processLine_eq_classify]
    cases hc : classify raw with
    | blank => rfl
    | comment => rfl
    | header n => rfl
    | badHeader => rfl
    | badKeyValue => rfl
    | keyValue key val => exact absurd hc (hnot key val)
  · intro key val hc
    rw [processLine_keyValue _ _ _ _ _ _ hc]
    unfold bindKey
    cases hfb : fieldByName t sn with
    | none => exact Or.inl rfl
    | some s =>
      simp only []
      by_cases hk : s.kind ≠ .struct
      · rw [if_pos hk]
        exact Or.inl rfl
      · rw [if_neg hk]
        by_cases hlen : (findFieldName s.fields key).length = 0
        · rw [if_pos hlen]
          exact Or.inl rfl
        · rw [if_neg hlen]
          cases hlb : leafByName s.fields (findFieldName s.fields key) with
          | none => exact Or.inl rfl
          | some f =>
            simp only []
            unfold assign
            cases hco : coerce f.kind val with
            | typeError => exact Or.inl rfl
            | unsupported => exact Or.inl rfl
            | value x =>
              right
              obtain ⟨tpre, tpost, fpre, fpost, ht, hsname, hfl, hfname, hset⟩ :=
                setLeaf_decomp t sn (findFieldName s.fields key) x s f hfb hlb
              refine ⟨tpre, s, tpost, fpre, f, fpost, x, ht, hsname, hfl, ?_, hset⟩
              have hsmem : s ∈ t := by rw [ht]; simp
              have hfmem : f ∈ s.fields := by rw [hfl]; simp
              rw [findFieldName_eq] at hfname hlen
              cases hfind : s.fields.find? (fun g => decide (g.tag = key)) with
              | none => simp [hfind] at hlen
              | some f0 =>
                rw [hfind] at hfname
                simp only [] at hfname
                have hf0mem := List.mem_of_find?_eq_some hfind
                have hf0tag : f0.tag = key := by simpa using List.find?_some hfind
                have := unique_name Leaf.name s.fields (hnd.2 s hsmem) f f0 hfmem hf0mem hfname
                rw [this]
                exact hf0tag

theorem single_field_frame_witness :
    NamesDistinct config ∧
    ((processLine 1 "port = 8".toList "MysqlConfig".toList config).target = config ∨
      ∃ tpre s tpost fpre f fpost x,
        config = tpre ++ s :: tpost ∧ s.name = "MysqlConfig".toList ∧
        s.fields = fpre ++ f :: fpost ∧ f.tag = "port".toList ∧
        (processLine 1 "port = 8".toList "MysqlConfig".toList config).target =
          tpre ++ { s with fields := fpre ++ { f with val := x } :: fpost } :: tpost) :=
  ⟨by decide,
    (single_field_frame 1 "port = 8".toList "MysqlConfig".toList config (by decide)).2
      "port".toList "8".toList (by decide)⟩

/-! ## Integer fields -/

theorem parseDigits_eq (s : Str) :
    ∀ acc : Nat, s.all (fun d => decide ('0' ≤ d ∧ d ≤ '9')) = true →
      parseDigits acc s = some (s.foldl (fun a c => a * 10 + (c.toNat - '0'.toNat)) acc) := by
  induction s with
  | nil => intro acc _; rfl
  | cons c cs ih =>
    intro acc h
    simp only [List.all_cons, Bool.and_eq_true, decide_eq_true_eq] at h
    unfold parseDigits digitVal
    rw [if_pos h.1]
    simp only [List.foldl_cons]
    exact ih _ h.2

theorem parseUint_eq (s : Str) (hne : s ≠ [])
    (h : s.all (fun d => decide ('0' ≤ d ∧ d ≤ '9')) = true) :
    parseUint s = if digitsValue s < 2 ^ 64 then some (digitsValue s) else none := by
  cases s with
  | nil => exact absurd rfl hne
  | cons c cs =>
    unfold parseUint
    rw [parseDigits_eq _ 0 h]
    rfl

theorem rangeCheck_pos (n : Nat) :
    (match (if n < 2 ^ 64 then some n else none : Option Nat) with
      | none => (none : Option Int)
      | some un =>
        if !false && 2 ^ 63 ≤ un then none
        else if false && 2 ^ 63 < un then none
        else some (if false then -(un : Int) else (un : Int))) =
      if -(2 : Int) ^ 63 ≤ (n : Int) ∧ (n : Int) < 2 ^ 63 then some (n : Int) else none := by
  by_cases h64 : n < 2 ^ 64
  · rw [if_pos h64]
    by_cases h63 : 2 ^ 63 ≤ n
    · have hr : ¬ (-(2 : Int) ^ 63 ≤ (n : Int) ∧ (n : Int) < 2 ^ 63) := by omega
      rw [if_neg hr]
      simp only [Bool.not_false, Bool.true_and, decide_eq_true_eq, h63, if_true]
    · have hr : (-(2 : Int) ^ 63 ≤ (n : Int) ∧ (n : Int) < 2 ^ 63) := by omega
      rw [if_pos hr]
      simp only [Bool.not_false, Bool.true_and, decide_eq_true_eq, h63, if_false,
        Bool.false_and, Bool.false_eq_true]
  · rw [if_neg h64]
    have hr : ¬ (-(2 : Int) ^ 63 ≤ (n : Int) ∧ (n : Int) < 2 ^ 63) := by omega
    rw [if_neg hr]

theorem rangeCheck_neg (n : Nat) :
    (match (if n < 2 ^ 64 then some n else none : Option Nat) with
      | none => (none : Option Int)
      | some un =>
        if !true && 2 ^ 63 ≤ un then none
        else if true && 2 ^ 63 < un then none
        else some (if true then -(un : Int) else (un : Int))) =
      if -(2 : Int) ^ 63 ≤ -(n : Int) ∧ -(n : Int) < 2 ^ 63 then some (-(n : Int)) else none := by
  by_cases h64 : n < 2 ^ 64
  · rw [if_pos h64]
    by_cases h63 : 2 ^ 63 < n
    · have hr : ¬ (-(2 : Int) ^ 63 ≤ -(n : Int) ∧ -(n : Int) < 2 ^ 63) := by omega
      rw [if_neg hr]
      simp only [Bool.not_true, Bool.false_and, Bool.false_eq_true, if_false, Bool.true_and,
        decide_eq_true_eq, h63, if_true]
    · have hr : (-(2 : Int) ^ 63 ≤ -(n : Int) ∧ -(n : Int) < 2 ^ 63) := by omega
      rw [if_pos hr]
      simp only [Bool.not_true, Bool.false_and, Bool.false_eq_true, if_false, Bool.true_and,
        decide_eq_true_eq, h63, if_true]
  · rw [if_neg h64]
    have hr : ¬ (-(2 : Int) ^ 63 ≤ -(n : Int) ∧ -(n : Int) < 2 ^ 63) := by omega
    rw [if_neg hr]

theorem parseInt_cons (c : Char) (rest : Str) :
    parseInt (c :: rest) =
      match parseUint (if c = '+' ∨ c = '-' then rest else c :: rest) with
      | none => none
      | some un =>
        if !(decide (c = '-')) && 2 ^ 63 ≤ un then none
        else if decide (c = '-') && 2 ^ 63 < un then none
        else some (if decide (c = '-') = true then -(un : Int) else (un : Int)) := rfl

theorem isIntLiteral_cons (c : Char) (rest : Str) :
    isIntLiteral (c :: rest) =
      if c = '+' ∨ c = '-' then
        !rest.isEmpty && rest.all (fun d => decide ('0' ≤ d ∧ d ≤ '9'))
      else (c :: rest).all (fun d => decide ('0' ≤ d ∧ d ≤ '9')) := rfl

theorem literalValue_cons (c : Char) (rest : Str) :
    literalValue (c :: rest) =
      if c = '-' then -(digitsValue rest : Int)
      else if c = '+' then (digitsValue rest : Int)
      else (digitsValue (c :: rest) : Int) := rfl

/-- The call `strconv.ParseInt(s, 10, 64)` on a literal: its value when that fits in
64 bits, an error otherwise. -/
theorem parseInt_literal (s : Str) (h : isIntLiteral s = true) :
    parseInt s =
      if -(2 : Int) ^ 63 ≤ literalValue s ∧ literalValue s < 2 ^ 63 then some (literalValue s)
      else none := by
  cases s with
  | nil => simp [isIntLiteral] at h
  | cons c rest =>
    rw [isIntLiteral_cons] at h
    rw [parseInt_cons, literalValue_cons]
    by_cases hm : c = '-'
    · have hs : c = '+' ∨ c = '-' := Or.inr hm
      rw [if_pos hs] at h ⊢
      simp only [Bool.and_eq_true, Bool.not_eq_true', List.isEmpty_eq_false] at h
      have hne : rest ≠ [] := by
        intro e; rw [e] at h; simp at h
      rw [parseUint_eq rest hne h.2, if_pos hm, decide_eq_true hm]
      exact rangeCheck_neg _
    · by_cases hp : c = '+'
      · have hs : c = '+' ∨ c = '-' := Or.inl hp
        rw [if_pos hs] at h ⊢
        simp only [Bool.and_eq_true, Bool.not_eq_true', List.isEmpty_eq_false] at h
        have hne : rest ≠ [] := by
          intro e; rw [e] at h; simp at h
        rw [parseUint_eq rest hne h.2, if_neg hm, if_pos hp, decide_eq_false hm]
        exact rangeCheck_pos _
      · have hs : ¬ (c = '+' ∨ c = '-') := by
          rintro (e | e)
          · exact hp e
          · exact hm e
        rw [if_neg hs] at h ⊢
        rw [parseUint_eq (c :: rest) (by simp) h, if_neg hm, if_neg hp, decide_eq_false hm]
        exact rangeCheck_pos _

/-- The conversion to `w` bits lands in the signed range of `w` bits and differs
from its argument by a multiple of `2^w`. -/
theorem wrapInt_spec (w : Nat) (hw : 1 ≤ w) (n : Int) :
    -(2 : Int) ^ (w - 1) ≤ wrapInt w n ∧ wrapInt w n < 2 ^ (w - 1) ∧
    (2 : Int) ^ w ∣ wrapInt w n - n := by
  obtain ⟨k, rfl⟩ : ∃ k, w = k + 1 := ⟨w - 1, by omega⟩
  unfold wrapInt
  simp only [Nat.add_sub_cancel]
  have hm : (2 : Int) ^ (k + 1) = 2 * 2 ^ k := by rw [pow_succ]; ring
  have hpos : (0 : Int) < 2 ^ k := by positivity
  rw [hm]
  generalize (2 : Int) ^ k = h at hpos ⊢
  have h1 := Int.emod_nonneg (n + h) (show (2 * h) ≠ 0 by omega)
  have h2 := Int.emod_lt_of_pos (n + h) (show 0 < 2 * h by omega)
  refine ⟨by omega, by omega, ?_⟩
  rw [Int.emod_def]
  exact ⟨-((n + h) / (2 * h)), by ring⟩

theorem coerce_int (k : Kind) (val : Str) (hk : isIntKind k = true) :
    coerce k val =
      match parseInt val with
      | none => .typeError
      | some n => .value (.int (wrapInt (bitSize k) n)) := by
  cases k <;> simp [isIntKind] at hk <;> simp [coerce]

/-- C18. Narrow integer fields wrap: for a key that resolves to a field of kind
int8, int16 or int32 - of width `w` equal to 8, 16 or 32 - and a value that is a
base-10 literal, a literal within the 64-bit signed range is accepted without error
and the field holds its value reduced modulo `2^w` into the signed range of `w`
bits; a literal outside the 64-bit signed range fails with the value-type error. -/
theorem narrow_int_wraps (pre post : List Str) (raw key val sn : Str) (t0 t : Target)
    (s : Section) (f : Leaf) (w : Nat)
    (hpre : loop 0 pre [] t0 = .next sn t)
    (hkv : classify raw = .keyValue key val)
    (hres : Resolves t sn key s f)
    (hkind : (f.kind = .int8 ∧ w = 8) ∨ (f.kind = .int16 ∧ w = 16) ∨
      (f.kind = .int32 ∧ w = 32))
    (hlit : isIntLiteral val = true) :
    (-(2 : Int) ^ 63 ≤ literalValue val ∧ literalValue val < 2 ^ 63 →
      processLine pre.length raw sn t =
        .next sn (setLeaf t sn f.name (.int (wrapInt w (literalValue val)))) ∧
      readLeaf (setLeaf t sn f.name (.int (wrapInt w (literalValue val))))
        sn f.name = some (.int (wrapInt w (literalValue val))) ∧
      -(2 : Int) ^ (w - 1) ≤ wrapInt w (literalValue val) ∧
      wrapInt w (literalValue val) < 2 ^ (w - 1) ∧
      (2 : Int) ^ w ∣ wrapInt w (literalValue val) - literalValue val) ∧
    (¬ (-(2 : Int) ^ 63 ≤ literalValue val ∧ literalValue val < 2 ^ 63) →
      loadLines (pre ++ raw :: post) t0 = ⟨.error (.valueType (pre.length + 1)), t⟩) := by
  have hik : isIntKind f.kind = true := by
    rcases hkind with ⟨h, _⟩ | ⟨h, _⟩ | ⟨h, _⟩ <;> rw [h] <;> rfl
  have hb : bitSize f.kind = w := by
    rcases hkind with ⟨h, hw⟩ | ⟨h, hw⟩ | ⟨h, hw⟩ <;> rw [h, hw] <;> rfl
  have hw : 1 ≤ w := by
    rcases hkind with ⟨_, hw⟩ | ⟨_, hw⟩ | ⟨_, hw⟩ <;> omega
  have hline : processLine pre.length raw sn t = assign pre.length sn f.name f val t := by
    rw [processLine_keyValue _ _ _ _ _ _ hkv, bindKey_resolved _ _ _ _ _ _ _ hres]
  have hco := coerce_int f.kind val hik
  rw [parseInt_literal val hlit, hb] at hco
  constructor
  · intro hr
    rw [if_pos hr] at hco
    obtain ⟨h1, h2, h3⟩ := wrapInt_spec w hw (literalValue val)
    refine ⟨?_, ?_, h1, h2, h3⟩
    · rw [hline]
      unfold assign
      rw [hco]
    · obtain ⟨g1, _, _, g4⟩ := hres
      have hname := leafByName_name _ _ _ g4
      rw [← hname] at g4
      exact readLeaf_setLeaf t sn f.name s f _ g1 g4
  · intro hr
    rw [if_neg hr] at hco
    apply loadLines_halt pre post raw sn t0 t t _ hpre
    rw [hline]
    unfold assign
    rw [hco]

theorem narrow_int_wraps_witness :
    (wrapInt 8 300 = 44 ∧
      processLine 1 "level=300".toList "Log".toList
          [⟨"Log".toList, "log".toList, .struct,
            [⟨"Level".toList, "level".toList, .int8, .int 0⟩]⟩] =
        .next "Log".toList
          (setLeaf
            [⟨"Log".toList, "log".toList, .struct,
              [⟨"Level".toList, "level".toList, .int8, .int 0⟩]⟩]
            "Log".toList "Level".toList (.int 44))) ∧
    (wrapInt 16 40000 = -25536 ∧
      processLine 1 "level=40000".toList "Log".toList
          [⟨"Log".toList, "log".toList, .struct,
            [⟨"Level".toList, "level".toList, .int16, .int 0⟩]⟩] =
        .next "Log".toList
          (setLeaf
            [⟨"Log".toList, "log".toList, .struct,
              [⟨"Level".toList, "level".toList, .int16, .int 0⟩]⟩]
            "Log".toList "Level".toList (.int (-25536)))) ∧
    (wrapInt 32 3000000000 = -1294967296 ∧
      processLine 1 "level=3000000000".toList "Log".toList
          [⟨"Log".toList, "log".toList, .struct,
            [⟨"Level".toList, "level".toList, .int32, .int 0⟩]⟩] =
        .next "Log".toList
          (setLeaf
            [⟨"Log".toList, "log".toList, .struct,
              [⟨"Level".toList, "level".toList, .int32, .int 0⟩]⟩]
            "Log".toList "Level".toList (.int (-1294967296)))) :=
  ⟨⟨by decide,
      ((narrow_int_wraps ["[log]".toList] [] "level=300".toList "level".toList "300".toList
        "Log".toList
        [⟨"Log".toList, "log".toList, .struct, [⟨"Level".toList, "level".toList, .int8, .int 0⟩]⟩]
        [⟨"Log".toList, "log".toList, .struct, [⟨"Level".toList, "level".toList, .int8, .int 0⟩]⟩]
        ⟨"Log".toList, "log".toList, .struct, [⟨"Level".toList, "level".toList, .int8, .int 0⟩]⟩
        ⟨"Level".toList, "level".toList, .int8, .int 0⟩ 8
        (by decide) (by decide) (by decide) (by decide) (by decide)).1 (by decide)).1⟩,
    ⟨by decide,
      ((narrow_int_wraps ["[log]".toList] [] "level=40000".toList "level".toList
        "40000".toList "Log".toList
        [⟨"Log".toList, "log".toList, .struct, [⟨"Level".toList, "level".toList, .int16, .int 0⟩]⟩]
        [⟨"Log".toList, "log".toList, .struct, [⟨"Level".toList, "level".toList, .int16, .int 0⟩]⟩]
        ⟨"Log".toList, "log".toList, .struct, [⟨"Level".toList, "level".toList, .int16, .int 0⟩]⟩
        ⟨"Level".toList, "level".toList, .int16, .int 0⟩ 16
        (by decide) (by decide) (by decide) (by decide) (by decide)).1 (by decide)).1⟩,
    ⟨by decide,
      ((narrow_int_wraps ["[log]".toList] [] "level=3000000000".toList "level".toList
        "3000000000".toList "Log".toList
        [⟨"Log".toList, "log".toList, .struct, [⟨"Level".toList, "level".toList, .int32, .int 0⟩]⟩]
        [⟨"Log".toList, "log".toList, .struct, [⟨"Level".toList, "level".toList, .int32, .int 0⟩]⟩]
        ⟨"Log".toList, "log".toList, .struct, [⟨"Level".toList, "level".toList, .int32, .int 0⟩]⟩
        ⟨"Level".toList, "level".toList, .int32, .int 0⟩ 32
        (by decide) (by decide) (by decide) (by decide) (by decide)).1 (by decide)).1⟩⟩

/-! ## White space -/

theorem trimSpace_append_left (w s : Str) (hw : ∀ c ∈ w, isSpace c = true) :
    trimSpace (w ++ s) = trimSpace s := by
  unfold trimSpace
  rw [List.dropWhile_append_of_pos hw]

theorem trimSpace_append_right (s w : Str) (hw : ∀ c ∈ w, isSpace c = true) :
    trimSpace (s ++ w) = trimSpace s := by
  unfold trimSpace
  rw [List.dropWhile_append]
  have hwd : w.dropWhile isSpace = [] := by
    rw [List.dropWhile_eq_nil_iff]
    exact hw
  by_cases he : (s.dropWhile isSpace).isEmpty = true
  · rw [if_pos he, hwd]
    rw [List.isEmpty_iff] at he
    rw [he]
  · rw [if_neg he, List.reverse_append,
      List.dropWhile_append_of_pos (fun c hc => hw c (List.mem_reverse.mp hc))]

theorem trimSpace_keep (c x : Char) (mid : Str) (hc : isSpace c = false)
    (hx : isSpace x = false) : trimSpace (c :: (mid ++ [x])) = c :: (mid ++ [x]) := by
  unfold trimSpace
  have hd : (c :: (mid ++ [x])).dropWhile isSpace = c :: (mid ++ [x]) := by
    simp [List.dropWhile_cons, hc]
  rw [hd]
  have hr : (c :: (mid ++ [x])).reverse = x :: (c :: mid).reverse := by simp
  rw [hr]
  have hd2 : (x :: (c :: mid).reverse).dropWhile isSpace = x :: (c :: mid).reverse := by
    simp [List.dropWhile_cons, hx]
  rw [hd2]
  simp

theorem trimSpace_keep_single (c : Char) (hc : isSpace c = false) : trimSpace [c] = [c] := by
  unfold trimSpace
  simp [List.dropWhile_cons, hc]

/-- A non-empty trimmed string ends with a character that is not white space. -/
theorem trimSpace_last (s : Str) (h : trimSpace s = s) (hne : s ≠ []) :
    ∃ init x, s = init ++ [x] ∧ isSpace x = false := by
  unfold trimSpace at h
  cases hr : (s.dropWhile isSpace).reverse.dropWhile isSpace with
  | nil =>
    rw [hr] at h
    exact absurd h.symm hne
  | cons x r' =>
    have hx := dropWhile_head isSpace _ x r' hr
    rw [hr] at h
    exact ⟨r'.reverse, x, by rw [← h]; simp, hx⟩

theorem isSpace_not_mem (w : Str) (hw : ∀ c ∈ w, isSpace c = true) (x : Char)
    (hx : isSpace x = false) : x ∉ w := by
  intro hm
  rw [hw x hm] at hx
  exact absurd hx (by simp)

/-- White space at either end of a line does not change its class. -/
theorem classify_outer (w0 w3 raw : Str) (h0 : ∀ c ∈ w0, isSpace c = true)
    (h3 : ∀ c ∈ w3, isSpace c = true) : classify (w0 ++ raw ++ w3) = classify raw := by
  unfold classify
  rw [trimSpace_append_right _ _ h3, trimSpace_append_left _ _ h0]

/-- The class of a header with white space around its name. -/
theorem classify_header (w1 w2 name : Str) (h1 : ∀ c ∈ w1, isSpace c = true)
    (h2 : ∀ c ∈ w2, isSpace c = true) (hname : trimSpace name = name) (hne : name ≠ []) :
    classify ('[' :: (w1 ++ name ++ w2 ++ [']'])) = .header name := by
  have ht : trimSpace ('[' :: (w1 ++ name ++ w2 ++ [']'])) = '[' :: (w1 ++ name ++ w2 ++ [']']) :=
    trimSpace_keep '[' ']' _ (by decide) (by decide)
  have hin : trimSpace (w1 ++ name ++ w2) = name := by
    rw [trimSpace_append_right _ _ h2, trimSpace_append_left _ _ h1, hname]
  unfold classify
  rw [ht]
  have hlast : ('[' :: (w1 ++ name ++ w2 ++ [']'])).getLast? = some ']' := by
    rw [show '[' :: (w1 ++ name ++ w2 ++ [']']) = ('[' :: (w1 ++ name ++ w2)) ++ [']'] from by simp]
    exact List.getLast?_concat _
  simp only [show ¬ ('[' = ';' ∨ '[' = '#') from by decide, if_false, if_true, hlast,
    List.dropLast_concat, hin, ne_eq, hne, not_false_eq_true, and_self]

/-- The class of an assignment with white space around its key and its value. -/
theorem classify_assignment (w1 w2 key val : Str) (h1 : ∀ c ∈ w1, isSpace c = true)
    (h2 : ∀ c ∈ w2, isSpace c = true) (hkey : trimSpace key = key) (hval : trimSpace val = val)
    (hne : key ≠ []) (hfirst : '=' ∉ key)
    (hhead : key.head? ≠ some ';' ∧ key.head? ≠ some '#' ∧ key.head? ≠ some '[') :
    classify (key ++ w1 ++ '=' :: (w2 ++ val)) = .keyValue key val := by
  cases key with
  | nil => exact absurd rfl hne
  | cons c key' =>
    have hc : isSpace c = false := trimSpace_head _ c key' hkey
    have hpre : '=' ∉ (c :: key') ++ w1 := by
      intro hm
      rcases List.mem_append.mp hm with hm | hm
      · exact hfirst hm
      · exact isSpace_not_mem w1 h1 '=' (by decide) hm
    have hprene : (c :: key') ++ w1 ≠ [] := by simp
    have hprehead : ((c :: key') ++ w1).head? ≠ some ';' ∧ ((c :: key') ++ w1).head? ≠ some '#' ∧
        ((c :: key') ++ w1).head? ≠ some '[' := by
      simpa using hhead
    have hk : trimSpace ((c :: key') ++ w1) = c :: key' := by
      rw [trimSpace_append_right _ _ h1, hkey]
    by_cases hv : val = []
    · subst hv
      have ht : trimSpace ((c :: key') ++ w1 ++ '=' :: (w2 ++ [])) =
          ((c :: key') ++ w1) ++ '=' :: [] := by
        rw [List.append_nil,
          show (c :: key') ++ w1 ++ '=' :: w2 = ((c :: key') ++ w1 ++ ['=']) ++ w2 from by simp,
          trimSpace_append_right _ _ h2,
          show (c :: key') ++ w1 ++ ['='] = c :: ((key' ++ w1) ++ ['=']) from by simp]
        rw [trimSpace_keep c '=' _ hc (by decide)]
      have := classify_keyValue _ _ _ ht hpre hprene hprehead
      rw [this, hk]
      rfl
    · obtain ⟨init, x, hvx, hx⟩ := trimSpace_last val hval hv
      have ht : trimSpace ((c :: key') ++ w1 ++ '=' :: (w2 ++ val)) =
          ((c :: key') ++ w1) ++ '=' :: (w2 ++ val) := by
        rw [hvx,
          show (c :: key') ++ w1 ++ '=' :: (w2 ++ (init ++ [x])) =
            c :: ((key' ++ w1 ++ '=' :: (w2 ++ init)) ++ [x]) from by simp]
        exact trimSpace_keep c x _ hc hx
      have := classify_keyValue _ _ _ ht hpre hprene hprehead
      rw [this, hk, trimSpace_append_left _ _ h2, hval]

theorem loop_congr (lines lines' : List Str)
    (h : List.Forall₂ (fun a b => classify a = classify b) lines lines') :
    ∀ (idx : Nat) (sn : Str) (t : Target), loop idx lines sn t = loop idx lines' sn t := by
  induction h with
  | nil => intro idx sn t; rfl
  | cons hab _ ih =>
    intro idx sn t
    rw [loop_cons, loop_cons, processLine_eq_classify, processLine_eq_classify idx _ sn t, hab]
    split
    · exact ih _ _ _
    · rfl

/-- C14. White space is insignificant: two files whose lines have the same class
line by line give the same outcome and the same target; white space at the start or
end of a line does not change its class; a header with white space around its name
is the header of that name, and an assignment with white space around its key and
value is the assignment of that key and value, the name, key and value being any
trimmed texts, white space inside them kept as written. -/
theorem whitespace_insignificant :
    (∀ (lines lines' : List Str) (t : Target),
      List.Forall₂ (fun a b => classify a = classify b) lines lines' →
      loadLines lines t = loadLines lines' t) ∧
    (∀ w0 w3 raw : Str, (∀ c ∈ w0, isSpace c = true) → (∀ c ∈ w3, isSpace c = true) →
      classify (w0 ++ raw ++ w3) = classify raw) ∧
    (∀ w0 w1 w2 w3 name : Str, (∀ c ∈ w0, isSpace c = true) → (∀ c ∈ w1, isSpace c = true) →
      (∀ c ∈ w2, isSpace c = true) → (∀ c ∈ w3, isSpace c = true) →
      trimSpace name = name → name ≠ [] →
      classify (w0 ++ '[' :: (w1 ++ name ++ w2 ++ [']']) ++ w3) = .header name) ∧
    (∀ w0 w1 w2 w3 key val : Str, (∀ c ∈ w0, isSpace c = true) → (∀ c ∈ w1, isSpace c = true) →
      (∀ c ∈ w2, isSpace c = true) → (∀ c ∈ w3, isSpace c = true) →
      trimSpace key = key → trimSpace val = val → key ≠ [] → '=' ∉ key →
      key.head? ≠ some ';' ∧ key.head? ≠ some '#' ∧ key.head? ≠ some '[' →
      classify (w0 ++ (key ++ w1 ++ '=' :: (w2 ++ val)) ++ w3) = .keyValue key val) := by
  refine ⟨?_, classify_outer, ?_, ?_⟩
  · intro lines lines' t h
    unfold loadLines
    rw [loop_congr lines lines' h]
  · intro w0 w1 w2 w3 name h0 h1 h2 h3 hname hne
    rw [classify_outer _ _ _ h0 h3]
    exact classify_header w1 w2 name h1 h2 hname hne
  · intro w0 w1 w2 w3 key val h0 h1 h2 h3 hkey hval hne hfirst hhead
    rw [classify_outer _ _ _ h0 h3]
    exact classify_assignment w1 w2 key val h1 h2 hkey hval hne hfirst hhead

theorem whitespace_insignificant_witness :
    loadLines ["\t[ mysql ] ".toList, "  address \t=  a  b ".toList] config =
      loadLines ["[mysql]".toList, "address=a  b".toList] config ∧
    readLeaf (loadLines ["\t[ mysql ] ".toList, "  address \t=  a  b ".toList] config).target
      "MysqlConfig".toList "Address".toList = some (.str "a  b".toList) :=
  ⟨whitespace_insignificant.1 ["\t[ mysql ] ".toList, "  address \t=  a  b ".toList]
      ["[mysql]".toList, "address=a  b".toList] config
      (List.Forall₂.cons (by decide) (List.Forall₂.cons (by decide) List.Forall₂.nil)),
    by decide⟩

/-! ## Fields without annotation -/

theorem findStructName_revalue (table : Str → Str → Option Value) (t : Target) (n sn : Str) :
    findStructName (revalue table t) n sn = findStructName t n sn := by
  induction t with
  | nil => rfl
  | cons x xs ih =>
    unfold revalue at ih ⊢
    simp only [List.map_cons, findStructName, sectionRe, ih]

theorem fieldByName_revalue (table : Str → Str → Option Value) (t : Target) (sn : Str) :
    fieldByName (revalue table t) sn = (fieldByName t sn).map (sectionRe table) := by
  unfold fieldByName revalue
  by_cases h : sn = []
  · simp [h]
  · simp only [h, if_false, List.find?_map]
    rfl

theorem findFieldName_leafRe (table : Str → Str → Option Value) (sec : Str) (fs : List Leaf)
    (k : Str) : findFieldName (fs.map (leafRe table sec)) k = findFieldName fs k := by
  induction fs with
  | nil => rfl
  | cons x xs ih =>
    simp only [List.map_cons, findFieldName, leafRe, ih]

theorem leafByName_leafRe (table : Str → Str → Option Value) (sec : Str) (fs : List Leaf)
    (fn : Str) :
    leafByName (fs.map (leafRe table sec)) fn = (leafByName fs fn).map (leafRe table sec) := by
  unfold leafByName
  by_cases h : fn = []
  · simp [h]
  · simp only [h, if_false, List.find?_map]
    rfl

theorem leafRe_setEntry_other (table : Str → Str → Option Value) (sn fn : Str) (x : Value)
    (sec : Str) (l : Leaf) (h : ¬ (sec = sn ∧ l.name = fn)) :
    leafRe (setEntry table sn fn x) sec l = leafRe table sec l := by
  unfold leafRe setEntry
  simp only [h, if_false]

/-- The write of the loop is the update of the table at the pair of names. -/
theorem setLeaf_revalue (table : Str → Str → Option Value) (t : Target) (sn fn : Str)
    (x : Value) (hnd : NamesDistinct t) :
    setLeaf (revalue table t) sn fn x = revalue (setEntry table sn fn x) t := by
  obtain ⟨hnames, hfields⟩ := hnd
  unfold setLeaf revalue
  rw [updateFirst_map Section.name sn _ (sectionRe table) t (fun _ => rfl) hnames]
  apply List.map_congr_left
  intro y hy
  by_cases hyn : y.name = sn
  · simp only [hyn, if_true]
    unfold sectionRe
    simp only [Section.mk.injEq, true_and]
    rw [updateFirst_map Leaf.name fn _ (leafRe table y.name) y.fields (fun _ => rfl)
      (hfields y hy)]
    apply List.map_congr_left
    intro l _
    by_cases hln : l.name = fn
    · simp only [hln, if_true]
      unfold leafRe setEntry
      simp [hyn, hln]
    · simp only [hln, if_false]
      rw [leafRe_setEntry_other _ _ _ _ _ _ (fun e => hln e.2)]
  · simp only [hyn, if_false]
    unfold sectionRe
    simp only [Section.mk.injEq, true_and]
    apply List.map_congr_left
    intro l _
    rw [leafRe_setEntry_other _ _ _ _ _ _ (fun e => hyn e.1)]

theorem revalue_none (t : Target) : revalue (fun _ _ => none) t = t := by
  unfold revalue
  have hleaf : ∀ sec, leafRe (fun _ _ => none) sec = id := by
    intro sec
    funext f
    rfl
  have hsec : sectionRe (fun _ _ => none) = id := by
    funext s
    unfold sectionRe
    rw [hleaf, List.map_id]
    rfl
  rw [hsec, List.map_id]

theorem activeName_findStructName (t : Target) (n sn : Str) (hn : n ≠ [])
    (hsn : ActiveName t sn) : ActiveName t (findStructName t n sn) := by
  rw [findStructName_eq]
  cases hf : t.find? (fun s => decide (s.tag = n)) with
  | none => exact hsn
  | some y =>
    have hy := List.mem_of_find?_eq_some hf
    have hty : y.tag = n := by simpa using List.find?_some hf
    exact Or.inr ⟨y, hy, rfl, by rw [hty]; exact hn⟩

theorem tagged_setEntry (t : Target) (table : Str → Str → Option Value) (sn key : Str)
    (x : Value) (s : Section) (hnd : NamesDistinct t) (hsn : ActiveName t sn)
    (htab : Tagged t table) (hkey : key ≠ []) (hs : fieldByName t sn = some s)
    (hfn : findFieldName s.fields key ≠ []) :
    Tagged t (setEntry table sn (findFieldName s.fields key) x) := by
  intro a b hab
  unfold setEntry at hab
  by_cases he : a = sn ∧ b = findFieldName s.fields key
  · obtain ⟨ha, hb⟩ := he
    unfold fieldByName at hs
    by_cases hsne : sn = []
    · simp [hsne] at hs
    rw [if_neg hsne] at hs
    have hsmem := List.mem_of_find?_eq_some hs
    have hsname : s.name = sn := by simpa using List.find?_some hs
    rcases hsn with h0 | ⟨s', hs', hn', ht'⟩
    · exact absurd h0 hsne
    · have hss : s' = s :=
        unique_name Section.name t hnd.1 s' s hs' hsmem (hn'.trans hsname.symm)
      subst hss
      refine ⟨s', hs', hn'.trans ha.symm, ht', ?_⟩
      rw [findFieldName_eq] at hfn hb
      cases hfind : s'.fields.find? (fun g => decide (g.tag = key)) with
      | none => simp [hfind] at hfn
      | some f0 =>
        rw [hfind] at hb
        have hf0 := List.mem_of_find?_eq_some hfind
        have hf0t : f0.tag = key := by simpa using List.find?_some hfind
        exact ⟨f0, hf0, hb.symm, by rw [hf0t]; exact hkey⟩
  · rw [if_neg he] at hab
    exact htab a b hab

/-- The binding of a key-value pair on a revalued target: the target it leaves is a
revalued target again, with a table whose entries are for annotated fields. -/
theorem bindKey_revalue (t : Target) (hnd : NamesDistinct t) (idx : Nat) (key val sn : Str)
    (table : Str → Str → Option Value) (hsn : ActiveName t sn) (htab : Tagged t table)
    (hkey : key ≠ []) :
    ∃ table', Tagged t table' ∧
      (bindKey idx key val sn (revalue table t) = .next sn (revalue table' t) ∨
        ∃ o, bindKey idx key val sn (revalue table t) = .halt o (revalue table' t)) := by
  unfold bindKey
  rw [fieldByName_revalue]
  cases hfb : fieldByName t sn with
  | none => exact ⟨table, htab, Or.inr ⟨_, rfl⟩⟩
  | some s =>
    simp only [Option.map_some']
    have hkind : (sectionRe table s).kind = s.kind := rfl
    have hflds : (sectionRe table s).fields = s.fields.map (leafRe table s.name) := rfl
    rw [hkind, hflds, findFieldName_leafRe, leafByName_leafRe]
    by_cases hk : s.kind ≠ .struct
    · rw [if_pos hk]
      exact ⟨table, htab, Or.inr ⟨_, rfl⟩⟩
    · rw [if_neg hk]
      by_cases hlen : (findFieldName s.fields key).length = 0
      · rw [if_pos hlen]
        exact ⟨table, htab, Or.inl rfl⟩
      · rw [if_neg hlen]
        cases hlb : leafByName s.fields (findFieldName s.fields key) with
        | none => exact ⟨table, htab, Or.inr ⟨_, rfl⟩⟩
        | some f =>
          simp only [Option.map_some']
          unfold assign
          have hco : coerce (leafRe table s.name f).kind val = coerce f.kind val := rfl
          rw [hco]
          cases coerce f.kind val with
          | typeError => exact ⟨table, htab, Or.inr ⟨_, rfl⟩⟩
          | unsupported => exact ⟨table, htab, Or.inl rfl⟩
          | value x =>
            simp only []
            rw [setLeaf_revalue table t sn _ x hnd]
            have hfn : findFieldName s.fields key ≠ [] :=
              fun e => hlen (by rw [e]; rfl)
            exact ⟨_, tagged_setEntry t table sn key x s hnd hsn htab hkey hfb hfn, Or.inl rfl⟩

/-- The loop on a revalued target leaves a revalued target, with a table whose
entries are for annotated fields of annotated sections. -/
theorem loop_revalue (t : Target) (hnd : NamesDistinct t) (lines : List Str) :
    ∀ (idx : Nat) (sn : Str) (table : Str → Str → Option Value),
      ActiveName t sn → Tagged t table →
      ∃ table', Tagged t table' ∧ (loop idx lines sn (revalue table t)).target =
        revalue table' t := by
  induction lines with
  | nil =>
    intro idx sn table _ htab
    exact ⟨table, htab, rfl⟩
  | cons raw rest ih =>
    intro idx sn table hsn htab
    rw [loop_cons, processLine_eq_classify]
    have hne := classify_nonempty raw
    cases hc : classify raw with
    | blank => exact ih (idx + 1) sn table hsn htab
    | comment => exact ih (idx + 1) sn table hsn htab
    | badHeader => exact ⟨table, htab, rfl⟩
    | badKeyValue => exact ⟨table, htab, rfl⟩
    | header n =>
      simp only []
      rw [findStructName_revalue]
      exact ih (idx + 1) _ table (activeName_findStructName t n sn (hne.1 n hc) hsn) htab
    | keyValue key val =>
      simp only []
      obtain ⟨table', htab', hstep⟩ :=
        bindKey_revalue t hnd idx key val sn table hsn htab (hne.2 key val hc)
      rcases hstep with h | ⟨o, h⟩
      · rw [h]
        exact ih (idx + 1) sn table' hsn htab'
      · rw [h]
        exact ⟨table', htab', rfl⟩

theorem revalue_eq_revalueTagged (t : Target) (hnd : NamesDistinct t)
    (table : Str → Str → Option Value) (htab : Tagged t table) :
    revalue table t = revalueTagged table t := by
  unfold revalue revalueTagged
  apply List.map_congr_left
  intro s hs
  unfold sectionRe
  simp only [Section.mk.injEq, true_and]
  apply List.map_congr_left
  intro f hf
  unfold leafRe
  simp only [Leaf.mk.injEq, true_and]
  by_cases hu : s.tag = [] ∨ f.tag = []
  · rw [if_pos hu]
    cases hv : table s.name f.name with
    | none => rfl
    | some v =>
      exfalso
      obtain ⟨s', hs', hn', ht', f', hf', hfn', hft'⟩ := htab s.name f.name (by rw [hv]; simp)
      have hss : s' = s := unique_name Section.name t hnd.1 s' s hs' hs hn'
      subst hss
      have hff : f' = f := unique_name Leaf.name s'.fields (hnd.2 s' hs') f' f hf' hf hfn'
      subst hff
      rcases hu with h | h
      · exact ht' h
      · exact hft' h
  · rw [if_neg hu]

theorem findStructName_filter (t : Target) (n sn : Str) (hn : n ≠ []) :
    findStructName t n sn =
      findStructName (t.filter (fun s => decide (s.tag ≠ []))) n sn := by
  induction t with
  | nil => rfl
  | cons x xs ih =>
    have hstep : ∀ l : List Section, findStructName (x :: l) n sn =
        if x.tag = n then x.name else findStructName l n sn := fun _ => rfl
    by_cases hx : x.tag = []
    · have h1 : ¬ x.tag = n := fun e => hn (e.symm.trans hx)
      rw [List.filter_cons_of_neg (by simp [hx]), hstep, if_neg h1]
      exact ih
    · rw [List.filter_cons_of_pos (by simp [hx]), hstep, hstep]
      by_cases h1 : x.tag = n
      · rw [if_pos h1, if_pos h1]
      · rw [if_neg h1, if_neg h1]
        exact ih

theorem findFieldName_filter (fs : List Leaf) (k : Str) (hk : k ≠ []) :
    findFieldName fs k = findFieldName (fs.filter (fun f => decide (f.tag ≠ []))) k := by
  induction fs with
  | nil => rfl
  | cons x xs ih =>
    have hstep : ∀ l : List Leaf, findFieldName (x :: l) k =
        if x.tag = k then x.name else findFieldName l k := fun _ => rfl
    by_cases hx : x.tag = []
    · have h1 : ¬ x.tag = k := fun e => hk (e.symm.trans hx)
      rw [List.filter_cons_of_neg (by simp [hx]), hstep, if_neg h1]
      exact ih
    · rw [List.filter_cons_of_pos (by simp [hx]), hstep, hstep]
      by_cases h1 : x.tag = k
      · rw [if_pos h1, if_pos h1]
      · rw [if_neg h1, if_neg h1]
        exact ih

/-- C19. Fields without an annotation are never bound: the name of an accepted
header and the key of an accepted assignment are not empty; the section scan and the
key scan give the same result as on the fields that carry an annotation alone; and
on a target whose sibling fields have distinct names, the target a call leaves for
any file is the initial one in which only annotated fields of annotated sections may
hold new contents. -/
theorem unannotated_never_bound :
    (∀ raw n, classify raw = .header n → n ≠ []) ∧
    (∀ raw k v, classify raw = .keyValue k v → k ≠ []) ∧
    (∀ (t : Target) (n sn : Str), n ≠ [] →
      findStructName t n sn =
        findStructName (t.filter (fun s => decide (s.tag ≠ []))) n sn) ∧
    (∀ (fs : List Leaf) (k : Str), k ≠ [] →
      findFieldName fs k = findFieldName (fs.filter (fun f => decide (f.tag ≠ []))) k) ∧
    (∀ (t : Target) (lines : List Str), NamesDistinct t →
      ∃ table, (loadLines lines t).target = revalueTagged table t) := by
  refine ⟨fun raw => (classify_nonempty raw).1, fun raw => (classify_nonempty raw).2,
    findStructName_filter, findFieldName_filter, ?_⟩
  intro t lines hnd
  obtain ⟨table, htab, h⟩ := loop_revalue t hnd lines 0 [] (fun _ _ => none) (Or.inl rfl)
    (fun a b hab => absurd rfl hab)
  rw [revalue_none] at h
  refine ⟨table, ?_⟩
  rw [← revalue_eq_revalueTagged t hnd table htab, ← h]
  unfold loadLines
  cases loop 0 lines [] t <;> rfl

theorem unannotated_never_bound_witness :
    ∃ table,
      (loadLines ["[s]".toList, "Hidden=1".toList, "shown=2".toList, "=3".toList]
        [⟨"S".toList, "s".toList, .struct,
          [⟨"Hidden".toList, [], .string, .str "keep".toList⟩,
            ⟨"Shown".toList, "shown".toList, .string, .str []⟩]⟩]).target =
      revalueTagged table
        [⟨"S".toList, "s".toList, .struct,
          [⟨"Hidden".toList, [], .string, .str "keep".toList⟩,
            ⟨"Shown".toList, "shown".toList, .string, .str []⟩]⟩] :=
  unannotated_never_bound.2.2.2.2 _ _ (by decide)

end Ini
